import Mathlib

/-!
Verification development for the CortexaAI RAG pipeline core.

The Python modules `services/rag_pipeline/chunker.py`,
`services/rag_pipeline/vectordb.py` and `rag_pipeline_module/retriever.py`
are shallowly embedded below.  Python strings are modelled as `List Char`,
Python `None`-able values as `Option`, Python dicts with a static key set as
structures, and raisable code as `Except`.  The external collaborators
(the sentence-transformer tokenizer, the NLTK sentence splitter, the
embedding model and the vector store backends) are parameters of the
embedding; the in-repository fallbacks (`int(len(text.split()) * 1.3)`
for token counting and `re.split(r'[.!?]+', text)` for sentence splitting)
are embedded concretely as `tokFallback` and `splitFallback`.
-/

/-- Python strings are modelled as lists of characters. -/
abbrev Str := List Char

/-- Whitespace test backing the models of Python `str.split()` and `str.strip()`. -/
def isSpc (c : Char) : Bool := c.isWhitespace

/-- Model of Python `str.strip()`: drop whitespace from both ends. -/
def trimStr (s : Str) : Str := ((s.dropWhile isSpc).reverse.dropWhile isSpc).reverse

/-- Split a character list at every character satisfying `p`, keeping empty
segments.  This models Python `str.split(sep)` for a one-character separator
and `re.split` with a one-character class (empty segments are filtered by the
callers exactly where the Python code filters them). -/
def splitChars (p : Char → Bool) : Str → List Str
  | [] => [[]]
  | c :: rest =>
    let r := splitChars p rest
    if p c then [] :: r
    else (c :: r.headI) :: r.tail

/-- Model of Python `str.split()` (no argument): whitespace runs separate
words, empty pieces are discarded. -/
def words (s : Str) : List Str := (splitChars isSpc s).filter (fun w => !w.isEmpty)

/-- Model of Python `sep.join(pieces)`. -/
def joinWith (sep : Str) : List Str → Str
  | [] => []
  | [s] => s
  | s :: t :: rest => s ++ sep ++ joinWith sep (t :: rest)

/-- Model of Python `' '.join(pieces)` as used by the chunker. -/
def joinSp (l : List Str) : Str := joinWith [' '] l

/-- Model of Python `'\n'.join(pieces)` as used by `identify_sections`. -/
def joinNl (l : List Str) : Str := joinWith ['\n'] l

/-- The chunker's fallback token counter `int(len(text.split()) * 1.3)`
(`TextChunker.count_tokens`, used when the subword tokenizer raises). -/
def tokFallback (s : Str) : Nat := 13 * (words s).length / 10

/-- The chunker's fallback sentence splitter
`[s.strip() for s in re.split(r'[.!?]+', text) if s.strip()]`
(`TextChunker.split_into_sentences`, used when NLTK raises). -/
def splitFallback (t : Str) : List Str :=
  ((splitChars (fun c => c == '.' || c == '!' || c == '?') t).map trimStr).filter
    (fun w => !w.isEmpty)

/-- Model of the Python negative slice `l[-n:]` for `n > 0`. -/
def takeLast (n : Nat) (l : List Str) : List Str := l.drop (l.length - n)

/-- Total token count of a list of pieces. -/
def sumTok (tok : Str → Nat) (l : List Str) : Nat := (l.map tok).sum

/-- The overlap-window loop of `TextChunker.chunk_text` (lines 106-114):
walk the closed chunk's pieces from the end, greedily collecting trailing
pieces while the cumulative token count stays within the overlap budget.
The argument list is the reversed current chunk; the result is the window in
original order together with the final cumulative token count. -/
def ovWinAux (tok : Str → Nat) (ov : Nat) : List Str → Nat → List Str × Nat
  | [], acc => ([], acc)
  | s :: rest, acc =>
    if acc + tok s ≤ ov then
      let r := ovWinAux tok ov rest (acc + tok s)
      (r.1 ++ [s], r.2)
    else ([], acc)

/-- Overlap window seeded from a just-closed chunk (`overlap_sentences` /
`overlap_tokens` in the Python code). -/
def ovWindow (tok : Str → Nat) (ov : Nat) (cur : List Str) : List Str × Nat :=
  ovWinAux tok ov cur.reverse 0

/-- The word-level forced-split loop of `TextChunker.chunk_text`
(lines 78-91): greedily accumulate words of an oversized sentence, emitting
the accumulated run whenever the next word would overflow `chunk_size`.
Returns (emitted chunks, pending word run, pending token sum). -/
def forceWordsAux (tok : Str → Nat) (cs : Nat) :
    List (List Str) → List Str → Nat → List Str → List (List Str) × List Str × Nat
  | emitted, temp, tempTok, [] => (emitted, temp, tempTok)
  | emitted, temp, tempTok, w :: ws =>
    let wt := tok w
    if tempTok + wt ≤ cs then forceWordsAux tok cs emitted (temp ++ [w]) (tempTok + wt) ws
    else forceWordsAux tok cs (if temp.isEmpty then emitted else emitted ++ [temp]) [w] wt ws

/-- State of the `chunk_text` sentence loop.  A chunk is kept as its list of
pieces (sentences, or words of a force-split sentence); the emitted string is
the single-space join of the pieces, exactly as `' '.join(current_chunk)`.
Each emitted chunk is paired with the overlap seed it was opened with (ghost
data not present in the Python code: the seed is empty for the first chunk,
for chunks emitted by the forced word-level split, and when the overlap loop
collected nothing; it lets overlap properties be stated). -/
structure ChunkState where
  chunks : List (List Str × List Str)
  cur : List Str
  curSeed : List Str
  curTok : Nat

/-- One iteration of the `for sentence in sentences` loop of
`TextChunker.chunk_text` (lines 66-122). -/
def chunkStep (tok : Str → Nat) (cs ov : Nat) (st : ChunkState) (sentence : Str) : ChunkState :=
  let sTok := tok sentence
  if cs < sTok then
    let chunks1 := if st.cur.isEmpty then st.chunks else st.chunks ++ [(st.cur, st.curSeed)]
    let fw := forceWordsAux tok cs [] [] 0 (words sentence)
    let chunks2 := chunks1 ++ fw.1.map (fun c => (c, ([] : List Str)))
    if fw.2.1.isEmpty then ⟨chunks2, [], [], 0⟩
    else
      let cur2 := if 0 < ov then takeLast ov fw.2.1 else []
      ⟨chunks2 ++ [(fw.2.1, [])], cur2, [], tok (joinSp cur2)⟩
  else if cs < st.curTok + sTok then
    let chunks1 := if st.cur.isEmpty then st.chunks else st.chunks ++ [(st.cur, st.curSeed)]
    if 0 < ov ∧ ¬st.cur.isEmpty then
      let w := ovWindow tok ov st.cur
      ⟨chunks1, w.1 ++ [sentence], w.1, w.2 + sTok⟩
    else ⟨chunks1, [sentence], [], sTok⟩
  else ⟨st.chunks, st.cur ++ [sentence], st.curSeed, st.curTok + sTok⟩

/-- `chunk_text` on an already-split sentence list, keeping each chunk as its
piece list together with its ghost overlap seed. -/
def chunkTextI (tok : Str → Nat) (sents : List Str) (cs ov : Nat) :
    List (List Str × List Str) :=
  let fin := sents.foldl (chunkStep tok cs ov) ⟨[], [], [], 0⟩
  if fin.cur.isEmpty then fin.chunks else fin.chunks ++ [(fin.cur, fin.curSeed)]

/-- The piece lists of the chunks of `chunk_text`. -/
def chunkTextPieces (tok : Str → Nat) (sents : List Str) (cs ov : Nat) : List (List Str) :=
  (chunkTextI tok sents cs ov).map Prod.fst

/-- `TextChunker.chunk_text`: empty text and empty sentence lists yield no
chunks, otherwise the sentence loop runs and each chunk is the single-space
join of its pieces.  `tok` is `count_tokens` and `split` is
`split_into_sentences`, both parameters because their primary branches call
external libraries (`tokFallback` and `splitFallback` are the in-repository
fallbacks). -/
def chunkText (tok : Str → Nat) (split : Str → List Str) (text : Str) (cs ov : Nat) :
    List Str :=
  if text.isEmpty then [] else
  let sents := split text
  if sents.isEmpty then [] else (chunkTextPieces tok sents cs ov).map joinSp

/-- A section found by `TextChunker.identify_sections`. -/
structure DocSection where
  title : Str
  index : Nat
  text : Str
deriving DecidableEq

/-- Model of `re.match(r'^#{1,6}\s+(.+)$', line, re.IGNORECASE)` on a
stripped line: one to six hash marks, mandatory whitespace, then the title
(the greedy whitespace run is consumed before the capture). -/
def matchMdHeader (l : Str) : Option Str :=
  let hs := l.takeWhile (fun c => c == '#')
  let rest := l.dropWhile (fun c => c == '#')
  if 1 ≤ hs.length ∧ hs.length ≤ 6 ∧ ¬(rest.takeWhile isSpc).isEmpty ∧
      ¬(rest.dropWhile isSpc).isEmpty
  then some (rest.dropWhile isSpc) else none

/-- Model of `re.match(r'^KW\s+\d+[:\s]+(.+)$', line, re.IGNORECASE)` on a
stripped line, for the keyword `KW` (`Chapter` or `Section`).  The final
alternative models regex backtracking: when everything after the digits is
colons/whitespace, `[:\s]+` gives one character back to `(.+)`. -/
def matchNumKw (kw : Str) (l : Str) : Option Str :=
  if (l.take kw.length).map Char.toLower = kw then
    let r1 := l.drop kw.length
    let r2 := r1.dropWhile isSpc
    let r3 := r2.dropWhile Char.isDigit
    let cs := r3.takeWhile (fun c => c == ':' || isSpc c)
    let r4 := r3.dropWhile (fun c => c == ':' || isSpc c)
    if ¬(r1.takeWhile isSpc).isEmpty ∧ ¬(r2.takeWhile Char.isDigit).isEmpty ∧
        ¬cs.isEmpty then
      if ¬r4.isEmpty then some r4
      else if 2 ≤ cs.length then some [cs.getLastD ' ']
      else none
    else none
  else none

/-- Model of `re.match(r'^\d+\.\s+(.+)$', line, re.IGNORECASE)` on a
stripped line. -/
def matchNumbered (l : Str) : Option Str :=
  let ds := l.takeWhile Char.isDigit
  let r1 := l.dropWhile Char.isDigit
  let r2 := r1.tail
  let r3 := r2.dropWhile isSpc
  if ¬ds.isEmpty ∧ r1.headI == '.' ∧ ¬r1.isEmpty ∧ ¬(r2.takeWhile isSpc).isEmpty ∧
      ¬r3.isEmpty
  then some r3 else none

/-- Model of `re.match(r'^[A-Z][A-Z\s]{2,}$', line, re.IGNORECASE)` on a
stripped line (with IGNORECASE the class matches any ASCII letter). -/
def matchCaps (l : Str) : Bool :=
  3 ≤ l.length && l.headI.isAlpha && l.tail.all (fun c => c.isAlpha || isSpc c)

/-- The `for pattern in section_patterns` loop of `identify_sections`
(lines 193-198): first matching pattern wins; the all-caps pattern has no
capture group, so the title is the whole stripped line. -/
def headerTitle (l : Str) : Option Str :=
  match matchMdHeader l with
  | some t => some t
  | none =>
    match matchNumKw ("chapter".data) l with
    | some t => some t
    | none =>
      match matchNumKw ("section".data) l with
      | some t => some t
      | none =>
        match matchNumbered l with
        | some t => some t
        | none => if matchCaps l then some l else none

/-- Close the section being accumulated: it is kept only when it has both a
header and at least one collected line (`if current_section and current_text`). -/
def closeSection (cur : Option (Str × Nat)) (curText : List Str) : List DocSection :=
  match cur with
  | some ti => if curText.isEmpty then [] else [⟨ti.1, ti.2, joinNl curText⟩]
  | none => []

/-- The line loop of `TextChunker.identify_sections` (lines 189-220). -/
def identifySectionsAux : Option (Str × Nat) → List Str → Nat → List Str → List DocSection
  | cur, curText, _, [] => closeSection cur curText
  | cur, curText, idx, line :: rest =>
    match headerTitle (trimStr line) with
    | some title => closeSection cur curText ++ identifySectionsAux (some (title, idx)) [] (idx + 1) rest
    | none => identifySectionsAux cur (curText ++ [line]) idx rest

/-- `TextChunker.identify_sections`: split into lines, scan for headers,
return `none` when no section survives. -/
def identifySections (text : Str) : Option (List DocSection) :=
  let secs := identifySectionsAux none [] 0 (splitChars (fun c => c == '\n') text)
  if secs.isEmpty then none else some secs

/-- A chunk record produced by `TextChunker.smart_chunk`.  The Python code
builds a dict with keys `text`, `section`, `section_index`, `chunk_index`,
`tokens` plus the caller metadata; the static keys are modelled as fields and
the caller metadata as an association list. -/
structure ChunkRec where
  text : Str
  secTitle : Option Str
  secIndex : Option Nat
  chunkIndex : Nat
  tokens : Nat
  meta : List (Str × Str)
deriving DecidableEq

/-- `TextChunker.smart_chunk` (lines 131-169): chunk each detected section
independently and tag the records, or fall back to whole-document chunking
with no section tag. -/
def smartChunk (tok : Str → Nat) (split : Str → List Str) (cs ov : Nat)
    (text : Str) (md : List (Str × Str)) : List ChunkRec :=
  if text.isEmpty then [] else
  match identifySections text with
  | some secs =>
    secs.flatMap (fun s =>
      (chunkText tok split s.text cs ov).enum.map (fun ic =>
        ⟨ic.2, some s.title, some s.index, ic.1, tok ic.2, md⟩))
  | none =>
    (chunkText tok split text cs ov).enum.map (fun ic =>
      ⟨ic.2, none, none, ic.1, tok ic.2, md⟩)

/-- A search hit as formatted by `VectorDB._search_qdrant` /
`_search_chroma`: text, similarity score and payload metadata.  Scores are
idealised as rationals (Python uses floats). -/
structure SearchResult where
  text : Str
  score : ℚ
  meta : List (Str × Str)
deriving DecidableEq

instance : Inhabited SearchResult := ⟨⟨[], 0, []⟩⟩

/-- Model of Python `str.lower()`. -/
def lowerStr (s : Str) : Str := s.map Char.toLower

/-- Model of `dict.get(k, d)` on an association list. -/
def metaGet (m : List (Str × Str)) (k : Str) (d : Str) : Str :=
  match m.lookup k with
  | some v => v
  | none => d

/-- The keyword-overlap score of `VectorDB.hybrid_search` (lines 328-333):
`len(query_words & text_words) / len(query_words)` with case-insensitive
whitespace tokenization, sets modelled by deduplicated word lists. -/
def kwScore (qWords : List Str) (t : Str) : ℚ :=
  (((words (lowerStr t)).dedup.filter (fun w => decide (w ∈ qWords))).length : ℚ) /
    (qWords.length : ℚ)

/-- The combined score of `VectorDB.hybrid_search` (lines 336-339). -/
def combinedScore (w : ℚ) (qWords : List Str) (r : SearchResult) : ℚ :=
  (1 - w) * r.score + w * kwScore qWords r.text

/-- The `top_k * 2` semantic candidates of `hybrid_search`, each paired with
its combined score (lines 325-339; the candidate dicts are mutated in place
in Python, modelled as pairing). -/
def hybridScored (searchFn : Str → Nat → List SearchResult) (q : Str) (topK : Nat)
    (w : ℚ) : List (SearchResult × ℚ) :=
  (searchFn q (topK * 2)).map (fun r => (r, combinedScore w ((words (lowerStr q)).dedup) r))

/-- The re-ranked candidate list of `hybrid_search` (line 342):
`semantic_results.sort(key=lambda x: x['combined_score'], reverse=True)` is a
stable descending sort, modelled by `mergeSort` preferring the left element
on ties. -/
def hybridRanked (searchFn : Str → Nat → List SearchResult) (q : Str) (topK : Nat)
    (w : ℚ) : List (SearchResult × ℚ) :=
  (hybridScored searchFn q topK w).mergeSort (fun a b => decide (b.2 ≤ a.2))

/-- `VectorDB.hybrid_search` (lines 319-344): fetch `top_k * 2` semantic
candidates via `search` (the embedding model and store are external, so
`search` is the parameter `searchFn`), attach combined scores, re-sort
descending (Python's stable sort with `reverse=True`), truncate to `top_k`.
When the query has no words and at least one candidate exists, the Python
code divides by `len(query_words) == 0`, which raises `ZeroDivisionError`;
this is the `Except.error` branch. -/
def hybridSearch (searchFn : Str → Nat → List SearchResult) (q : Str) (topK : Nat)
    (w : ℚ) : Except Unit (List SearchResult) :=
  let sem := searchFn q (topK * 2)
  let qWords := (words (lowerStr q)).dedup
  if !sem.isEmpty && qWords.isEmpty then Except.error ()
  else Except.ok (((hybridRanked searchFn q topK w).map Prod.fst).take topK)

/-- One context block of `RAGRetriever.get_context` (line 280):
`f"[Source: {source}, Page: {page}]\n{chunk_text}\n"` with the metadata
defaults of lines 277-278. -/
def formatBlock (r : SearchResult) : Str :=
  ("[Source: ".data) ++ metaGet r.meta ("source".data) ("Unknown".data) ++
    (", Page: ".data) ++ metaGet r.meta ("page".data) ("N/A".data) ++
    ("]\n".data) ++ r.text ++ ("\n".data)

/-- The greedy budget loop of `RAGRetriever.get_context` (lines 268-282):
take results in order, stopping before the first block whose chunk-text
token count would push the running total over `max_tokens`. -/
def takeBudget (tok : Str → Nat) (maxT : Nat) : List SearchResult → Nat → List SearchResult
  | [], _ => []
  | r :: rest, cur =>
    let ct := tok r.text
    if maxT < cur + ct then [] else r :: takeBudget tok maxT rest (cur + ct)

/-- Decimal rendering of a natural number, for the f-string header. -/
def natStr (n : Nat) : Str := (Nat.repr n).data

/-- The header line of `get_context` (line 287):
`f"Found {len(results)} relevant chunks. Showing top {len(context_parts)} chunks:\n\n"`. -/
def contextHeader (total shown : Nat) : Str :=
  ("Found ".data) ++ natStr total ++ (" relevant chunks. Showing top ".data) ++
    natStr shown ++ (" chunks:\n\n".data)

/-- `RAGRetriever.get_context` (lines 251-289) downstream of the search call
(the search itself is external to this function's budget logic, so the
already-ranked result list is a parameter). -/
def getContext (tok : Str → Nat) (results : List SearchResult) (maxT : Nat) : Str :=
  if results.isEmpty then ("No relevant information found.".data) else
  let sel := takeBudget tok maxT results 0
  contextHeader results.length sel.length ++ joinWith ("\n---\n".data) (sel.map formatBlock)

/-- A chunk dict as handed to `VectorDB.add_documents`: optional pre-assigned
id, text, and remaining metadata. -/
structure VChunk where
  cid : Option Str
  text : Str
  meta : List (Str × Str)
deriving DecidableEq

/-- `chunk.get('id') or self.generate_id(chunk['text'], chunk)` (vectordb.py
lines 195 and 227): the pre-assigned id when present and truthy, otherwise
the content hash (`generate_id` wraps the external `hashlib.md5`, so the
content-derived id function is the parameter `contentId`). -/
def docIdOf (contentId : VChunk → Str) (c : VChunk) : Str :=
  match c.cid with
  | some i => if i.isEmpty then contentId c else i
  | none => contentId c

/-- A Qdrant upsert of one point: the store maps integer point ids to
payloads (`client.upsert` overwrites the point with the given id). -/
def upsertQ (s : Nat → Option VChunk) (i : Nat) (c : VChunk) : Nat → Option VChunk :=
  fun j => if j = i then some c else s j

/-- `VectorDB._add_documents_qdrant` (lines 189-216): each point is stored
under `id=i`, the position of the chunk in the submitted list (the computed
`doc_id` is never used); batching upserts in slices does not change the final
store, so the batches are replayed as one pass. -/
def addDocumentsQdrant (s : Nat → Option VChunk) (chunks : List VChunk) :
    Nat → Option VChunk :=
  chunks.enum.foldl (fun acc ic => upsertQ acc ic.1 ic.2) s

/-- `VectorDB._add_documents_chroma` (lines 218-245): the ids submitted to
the Chroma collection, one content-derived id per chunk. -/
def chromaIds (contentId : VChunk → Str) (chunks : List VChunk) : List Str :=
  chunks.map (docIdOf contentId)

/-- Outcome of the per-document body of `RAGRetriever.ingest_topic`
(lines 113-211): a document yields indexed chunks, is skipped as already
processed (counted as processed), is skipped for empty content (not counted,
not an error), or raises (caught, recorded, loop continues). -/
inductive DocOutcome where
  | processed (chunks : List VChunk)
  | skipCached
  | skipEmpty
  | failed (msg : Str)

/-- The ingestion report dict of `ingest_topic` (lines 91-97). -/
structure IngestReport where
  booksDownloaded : Nat
  booksProcessed : Nat
  chunksCreated : Nat
  errors : List Str
deriving DecidableEq

/-- `RAGRetriever.ingest_topic` downstream of the scrape (the scraper, PDF
extraction and metadata assembly are external collaborators, so the
downloaded list and the per-document outcome are parameters): the
try/except-per-document loop accumulates processed counts, chunks and error
messages, then reports.  `chunks_created` is set to `len(all_chunks)` when
nonempty and stays `0` otherwise, which is `len(all_chunks)` either way. -/
def ingestTopic {Book : Type} (process : Book → DocOutcome) (books : List Book) :
    IngestReport :=
  let st := books.foldl
    (fun (acc : Nat × List VChunk × List Str) b =>
      match process b with
      | .processed ch => (acc.1 + 1, acc.2.1 ++ ch, acc.2.2)
      | .skipCached => (acc.1 + 1, acc.2.1, acc.2.2)
      | .skipEmpty => acc
      | .failed m => (acc.1, acc.2.1, acc.2.2 ++ [m]))
    (0, [], [])
  ⟨books.length, st.1, st.2.1.length, st.2.2⟩

/-- Length of the longest string that is simultaneously a suffix of `a` and a
prefix of `b`: the material shared by two consecutive chunks.  This is a
specification-side notion used to state overlap claims. -/
def commonOverlapLen (a b : Str) : Nat :=
  ((List.range (min a.length b.length + 1)).filter
    (fun k => decide (a.drop (a.length - k) = b.take k))).foldr max 0

/-- Total token count of the chunk texts of a result list, as accumulated in
`current_tokens` by `get_context`. -/
def ctxTokens (tok : Str → Nat) (l : List SearchResult) : Nat :=
  (l.map (fun r => tok r.text)).sum

/-- Did the per-document body count this outcome in `books_processed`? -/
def processedFlag (o : DocOutcome) : Bool :=
  match o with
  | .processed _ => true
  | .skipCached => true
  | _ => false

/-- The chunks a per-document outcome contributes to `all_chunks`. -/
def outChunks (o : DocOutcome) : Option (List VChunk) :=
  match o with
  | .processed ch => some ch
  | _ => none

/-- The error message a per-document outcome appends to `results['errors']`. -/
def outErr (o : DocOutcome) : Option Str :=
  match o with
  | .failed m => some m
  | _ => none

/-- Sequential point writes starting at a given integer id: the effect of
one Qdrant upsert pass. -/
def writeSeq (s : Nat → Option VChunk) (n : Nat) : List VChunk → Nat → Option VChunk
  | [] => s
  | c :: cs => writeSeq (upsertQ s n c) (n + 1) cs

/-- An empty vector store. -/
def emptyStore : Nat → Option VChunk := fun _ => none

/-- A concrete chunk used in concrete instances. -/
def chA : VChunk := ⟨none, ("alpha".data), []⟩

/-- A second, distinct concrete chunk. -/
def chB : VChunk := ⟨none, ("beta".data), []⟩

/-- A search backend returning one fixed hit regardless of query and k. -/
def sfConst : Str → Nat → List SearchResult :=
  fun _ _ => [⟨("doc".data), 1, []⟩]

/-- A search backend returning two fixed hits in descending score order,
truncated to the requested k. -/
def sfPair : Str → Nat → List SearchResult :=
  fun _ k => ([⟨("alpha beta".data), (2 : ℚ), []⟩, ⟨("gamma".data), (1 : ℚ), []⟩]).take k

/-- A result whose chunk text alone fills a ten-token budget. -/
def resOverfull : SearchResult := ⟨("w w w w w w w w".data), 1, []⟩

/-- The chunk-size discipline a chunk's piece list can be held to: the
joined chunk string stays within `chunk_size + overlap` tokens unless the
chunk contains a piece (a word of a force-split oversized sentence) that
alone exceeds `chunk_size`. -/
def GoodChunk (tok : Str → Nat) (cs ov : Nat) (pieces : List Str) : Prop :=
  tok (joinSp pieces) ≤ cs + ov ∨ ∃ p ∈ pieces, cs < tok p

/-- Adjacency of two consecutive chunks produced by the sentence-level path:
the later chunk opens with a seed that is a suffix of the earlier chunk's
pieces and a prefix of its own, the seed's total token count is within the
overlap budget, and the seed is nonempty exactly when the overlap budget is
positive and the earlier chunk's last piece fits in it. -/
def SeedAdj (tok : Str → Nat) (ov : Nat) (a b : List Str × List Str) : Prop :=
  b.2 <:+ a.1 ∧ b.2 <+: b.1 ∧ sumTok tok b.2 ≤ ov ∧
  (b.2 ≠ [] ↔ 0 < ov ∧ ∃ x, a.1.getLast? = some x ∧ tok x ≤ ov)

/-- A string that is a single-space join of nonempty material all of which
occurs verbatim (as contiguous character runs) inside `t`. -/
def SpaceJoinOfInfixes (t c : Str) : Prop :=
  ∃ pieces, pieces ≠ [] ∧ c = joinSp pieces ∧ ∀ p ∈ pieces, p <:+: t

/-!  ## Lemmas and claim theorems -/

theorem ingest_foldl {Book : Type} (process : Book → DocOutcome) (books : List Book)
    (p : Nat) (cs : List VChunk) (es : List Str) :
    books.foldl
      (fun (acc : Nat × List VChunk × List Str) b =>
        match process b with
        | .processed ch => (acc.1 + 1, acc.2.1 ++ ch, acc.2.2)
        | .skipCached => (acc.1 + 1, acc.2.1, acc.2.2)
        | .skipEmpty => acc
        | .failed m => (acc.1, acc.2.1, acc.2.2 ++ [m]))
      (p, cs, es) =
      (p + books.countP (fun b => processedFlag (process b)),
       cs ++ ((books.map process).filterMap outChunks).flatten,
       es ++ (books.map process).filterMap outErr) := by
  induction books generalizing p cs es with
  | nil => simp
  | cons b bs ih =>
    simp only [List.foldl_cons, List.map_cons, List.countP_cons, List.filterMap_cons]
    cases h : process b <;>
      simp [ih, processedFlag, outChunks, outErr, h, List.flatten,
        List.append_assoc, Nat.add_assoc, Nat.add_comm 1]

/-- C9: a per-document failure during `ingest_topic` is recorded in the
report's error list and does not abort the loop: the report counts every
successfully processed or cache-skipped document, totals the chunks of
exactly the successfully processed documents, and lists exactly the raised
error messages, independently of where failures occur. -/
theorem claim_C9 {Book : Type} (process : Book → DocOutcome) (books : List Book) :
    ingestTopic process books =
      ⟨books.length,
       books.countP (fun b => processedFlag (process b)),
       (((books.map process).filterMap outChunks).flatten).length,
       (books.map process).filterMap outErr⟩ := by
  unfold ingestTopic
  rw [ingest_foldl]
  simp

theorem upsertQ_self (s : Nat → Option VChunk) (i : Nat) (c : VChunk) :
    upsertQ (upsertQ s i c) i c = upsertQ s i c := by
  funext j
  unfold upsertQ
  by_cases h : j = i <;> simp [h]

theorem upsertQ_swap (s : Nat → Option VChunk) (i n : Nat) (c c2 : VChunk)
    (h : i ≠ n) : upsertQ (upsertQ s i c) n c2 = upsertQ (upsertQ s n c2) i c := by
  funext j
  unfold upsertQ
  by_cases h1 : j = n <;> by_cases h2 : j = i <;> simp_all

theorem writeSeq_upsertQ_lt (l : List VChunk) (s : Nat → Option VChunk)
    (i n : Nat) (c : VChunk) (h : i < n) :
    writeSeq (upsertQ s i c) n l = upsertQ (writeSeq s n l) i c := by
  induction l generalizing s n with
  | nil => rfl
  | cons c2 cs ih =>
    unfold writeSeq
    rw [upsertQ_swap s i n c c2 (Nat.ne_of_lt h), ih (upsertQ s n c2) (n + 1) (Nat.lt_succ_of_lt h)]

theorem writeSeq_idem (l : List VChunk) (s : Nat → Option VChunk) (n : Nat) :
    writeSeq (writeSeq s n l) n l = writeSeq s n l := by
  induction l generalizing s n with
  | nil => rfl
  | cons c cs ih =>
    show writeSeq (upsertQ (writeSeq (upsertQ s n c) (n + 1) cs) n c) (n + 1) cs = _
    rw [← writeSeq_upsertQ_lt cs (upsertQ s n c) n (n + 1) c (Nat.lt_succ_self n),
      upsertQ_self, ih]
    rfl

theorem addDocumentsQdrant_eq_writeSeq (chunks : List VChunk) :
    ∀ (s : Nat → Option VChunk) (n : Nat),
      (List.enumFrom n chunks).foldl (fun acc ic => upsertQ acc ic.1 ic.2) s =
        writeSeq s n chunks := by
  induction chunks with
  | nil => intro s n; rfl
  | cons c cs ih =>
    intro s n
    rw [List.enumFrom_cons]
    exact ih (upsertQ s n c) (n + 1)

/-- C5 (amended): the Qdrant path keys points by list position
(`PointStruct(id=i, ...)`), so replaying the very same chunk list overwrites
each position with the same payload: calling `add_documents` twice with the
same chunk list leaves exactly the stored entries of calling it once. -/
theorem claim_C5 (s : Nat → Option VChunk) (chunks : List VChunk) :
    addDocumentsQdrant (addDocumentsQdrant s chunks) chunks =
      addDocumentsQdrant s chunks := by
  unfold addDocumentsQdrant List.enum
  rw [addDocumentsQdrant_eq_writeSeq, addDocumentsQdrant_eq_writeSeq]
  exact writeSeq_idem chunks s 0

/-- C5 counterexample: entries are not keyed by a content-derived id.
Re-adding the byte-identical chunk `chB` after adding `[chA, chB]` is not a
no-op upsert of `chB`'s entry: it is written at position 0 and overwrites
the unrelated entry of `chA`. -/
theorem claim_C5_cex :
    addDocumentsQdrant (addDocumentsQdrant emptyStore [chA, chB]) [chB] 0 = some chB ∧
    addDocumentsQdrant emptyStore [chA, chB] 0 = some chA ∧
    chA ≠ chB ∧
    addDocumentsQdrant (addDocumentsQdrant emptyStore [chA, chB]) [chB] ≠
      addDocumentsQdrant emptyStore [chA, chB] := by
  refine ⟨rfl, rfl, by decide, fun h => ?_⟩
  have h0 := congrFun h 0
  rw [show addDocumentsQdrant (addDocumentsQdrant emptyStore [chA, chB]) [chB] 0 = some chB from rfl,
    show addDocumentsQdrant emptyStore [chA, chB] 0 = some chA from rfl] at h0
  exact absurd (Option.some.inj h0) (by decide)

theorem hybridSearch_ok_of_words (searchFn : Str → Nat → List SearchResult) (q : Str)
    (topK : Nat) (w : ℚ) (h : (words (lowerStr q)).dedup ≠ []) :
    hybridSearch searchFn q topK w =
      Except.ok (((hybridRanked searchFn q topK w).map Prod.fst).take topK) := by
  unfold hybridSearch
  have hq : ((words (lowerStr q)).dedup).isEmpty = false := by
    simpa [List.isEmpty_iff] using h
  simp [hq]

/-- C10: when the lowercased whitespace split of the query is empty and the
semantic search returns at least one candidate, `hybrid_search` divides by
`len(query_words) == 0` and raises (the error branch); when the query has at
least one word the division is safe and a result list is returned. -/
theorem claim_C10 (searchFn : Str → Nat → List SearchResult) (q : Str) (topK : Nat)
    (w : ℚ) :
    (words (lowerStr q) = [] → searchFn q (topK * 2) ≠ [] →
      hybridSearch searchFn q topK w = Except.error ()) ∧
    (words (lowerStr q) ≠ [] → (hybridSearch searchFn q topK w).isOk = true) := by
  constructor
  · intro hw hs
    unfold hybridSearch
    have h1 : (searchFn q (topK * 2)).isEmpty = false := by
      simpa [List.isEmpty_iff] using hs
    simp [hw, h1]
  · intro hw
    have hd : (words (lowerStr q)).dedup ≠ [] := by
      simpa [List.dedup_eq_nil] using hw
    rw [hybridSearch_ok_of_words searchFn q topK w hd]
    rfl

/-- C10 witness at concrete inputs: the all-whitespace query raises against
the one-hit backend, the one-word query does not. -/
theorem claim_C10_witness :
    hybridSearch sfConst ("".data) 5 0 = Except.error () ∧
    (hybridSearch sfConst ("beta".data) 5 0).isOk = true := by
  exact ⟨(claim_C10 sfConst ("".data) 5 0).1 (by decide) (by decide),
    (claim_C10 sfConst ("beta".data) 5 0).2 (by decide)⟩

theorem rankedLe_trans (a b c : SearchResult × ℚ)
    (h1 : decide (b.2 ≤ a.2) = true) (h2 : decide (c.2 ≤ b.2) = true) :
    decide (c.2 ≤ a.2) = true := by
  simp only [decide_eq_true_eq] at *
  exact h2.trans h1

theorem rankedLe_total (a b : SearchResult × ℚ) :
    (decide (b.2 ≤ a.2) || decide (a.2 ≤ b.2)) = true := by
  simpa using le_total b.2 a.2

/-- C3: for a query with at least one word, `hybrid_search` succeeds and its
result is the first `top_k` entries of a descending reordering of the
`top_k * 2` semantic candidates, each scored by
`(1 - w) * semantic + w * |query_words ∩ chunk_words| / |query_words|`
under case-insensitive whitespace tokenization. -/
theorem claim_C3 (searchFn : Str → Nat → List SearchResult) (q : Str) (topK : Nat)
    (w : ℚ) (hq : (words (lowerStr q)).dedup ≠ []) :
    hybridSearch searchFn q topK w =
      Except.ok (((hybridRanked searchFn q topK w).map Prod.fst).take topK) ∧
    (hybridRanked searchFn q topK w).Pairwise (fun a b => b.2 ≤ a.2) ∧
    (hybridRanked searchFn q topK w).Perm
      ((searchFn q (topK * 2)).map (fun r =>
        (r, (1 - w) * r.score +
          w * kwScore ((words (lowerStr q)).dedup) r.text))) := by
  refine ⟨hybridSearch_ok_of_words searchFn q topK w hq, ?_, ?_⟩
  · have hs := List.sorted_mergeSort rankedLe_trans rankedLe_total
      (hybridScored searchFn q topK w)
    exact (hs.imp (fun h => of_decide_eq_true h))
  · have hp := List.mergeSort_perm (hybridScored searchFn q topK w)
      (fun a b => decide (b.2 ≤ a.2))
    unfold hybridScored combinedScore at hp
    exact hp

/-- C3 witness at concrete inputs: the two-hit backend and the query "beta"
(whose keyword score boosts the matching text). -/
theorem claim_C3_witness :
    hybridSearch sfPair ("beta".data) 1 ((3 : ℚ) / 10) =
      Except.ok (((hybridRanked sfPair ("beta".data) 1 ((3 : ℚ) / 10)).map Prod.fst).take 1) ∧
    (hybridRanked sfPair ("beta".data) 1 ((3 : ℚ) / 10)).Pairwise (fun a b => b.2 ≤ a.2) ∧
    (hybridRanked sfPair ("beta".data) 1 ((3 : ℚ) / 10)).Perm
      ((sfPair ("beta".data) (1 * 2)).map (fun r =>
        (r, (1 - (3 : ℚ) / 10) * r.score +
          ((3 : ℚ) / 10) * kwScore ((words (lowerStr ("beta".data))).dedup) r.text))) :=
  claim_C3 sfPair ("beta".data) 1 ((3 : ℚ) / 10) (by decide)

/-- C4 counterexample: with the constant one-hit backend and the empty
query, `hybrid_search` with zero keyword weight raises on the division by
`len(query_words) == 0` before the weight is ever applied, while plain
`search` returns its hit; the rankings are not the same. -/
theorem claim_C4_cex :
    hybridSearch sfConst ("".data) 5 0 = Except.error () ∧
    sfConst ("".data) 5 = [⟨("doc".data), 1, []⟩] ∧
    Except.error () ≠ Except.ok (sfConst ("".data) 5) := by
  refine ⟨rfl, rfl, fun h => ?_⟩
  exact Except.noConfusion h

/-- C4 (amended): for a query with at least one word, and a semantic search
that returns descending-sorted results consistent under truncation,
`hybrid_search` with `keyword_weight = 0` returns exactly the ranking of
plain `search`: the combined score collapses to the semantic score and the
stable re-sort leaves the already-sorted candidates unchanged. -/
theorem claim_C4 (searchFn : Str → Nat → List SearchResult) (q : Str) (topK : Nat)
    (hq : words (lowerStr q) ≠ [])
    (hsorted : (searchFn q (topK * 2)).Pairwise (fun a b => b.score ≤ a.score))
    (hpre : searchFn q topK = (searchFn q (topK * 2)).take topK) :
    hybridSearch searchFn q topK 0 = Except.ok (searchFn q topK) := by
  have hd : (words (lowerStr q)).dedup ≠ [] := by
    simpa [List.dedup_eq_nil] using hq
  rw [hybridSearch_ok_of_words searchFn q topK 0 hd]
  have hscored : hybridScored searchFn q topK 0 =
      (searchFn q (topK * 2)).map (fun r => (r, r.score)) := by
    unfold hybridScored
    refine List.map_congr_left (fun r _ => ?_)
    simp [combinedScore]
  have hpw : (hybridScored searchFn q topK 0).Pairwise
      (fun a b : SearchResult × ℚ => decide (b.2 ≤ a.2) = true) := by
    rw [hscored]
    exact hsorted.map _ (fun a b h => by simpa using h)
  have hms : hybridRanked searchFn q topK 0 = hybridScored searchFn q topK 0 :=
    List.mergeSort_of_sorted hpw
  rw [hms, hscored, hpre]
  congr 1
  simp [List.map_map, Function.comp_def]

/-- C4 witness at concrete inputs: the truncation-consistent two-hit
backend, a one-word query and `top_k = 1`. -/
theorem claim_C4_witness :
    hybridSearch sfPair ("zeta".data) 1 0 = Except.ok (sfPair ("zeta".data) 1) :=
  claim_C4 sfPair ("zeta".data) 1 (by decide) (by decide) (by decide)

theorem takeBudget_spec (tok : Str → Nat) (maxT : Nat) :
    ∀ (rs : List SearchResult) (cur : Nat), cur ≤ maxT →
      cur + ctxTokens tok (takeBudget tok maxT rs cur) ≤ maxT ∧
      takeBudget tok maxT rs cur <+: rs ∧
      (rs.drop (takeBudget tok maxT rs cur).length ≠ [] →
        maxT < cur + ctxTokens tok (takeBudget tok maxT rs cur) +
          tok ((rs.drop (takeBudget tok maxT rs cur).length).headI).text) := by
  intro rs
  induction rs with
  | nil =>
    intro cur hc
    refine ⟨by simpa [takeBudget, ctxTokens] using hc, by simp [takeBudget], ?_⟩
    intro h
    simp [takeBudget] at h
  | cons r rest ih =>
    intro cur hc
    by_cases hover : maxT < cur + tok r.text
    · have hb : takeBudget tok maxT (r :: rest) cur = [] := by
        simp only [takeBudget]
        rw [if_pos hover]
      refine ⟨by simpa [hb, ctxTokens] using hc, by simp [hb], ?_⟩
      intro _
      simpa [hb, ctxTokens] using hover
    · push_neg at hover
      have hb : takeBudget tok maxT (r :: rest) cur =
          r :: takeBudget tok maxT rest (cur + tok r.text) := by
        simp only [takeBudget]
        rw [if_neg (Nat.not_lt.mpr hover)]
      obtain ⟨ih1, ih2, ih3⟩ := ih (cur + tok r.text) hover
      refine ⟨?_, ?_, ?_⟩
      · simpa [hb, ctxTokens, Nat.add_assoc] using ih1
      · rw [hb]
        obtain ⟨t, ht⟩ := ih2
        exact ⟨t, by rw [List.cons_append, ht]⟩
      · intro h
        rw [hb] at h ⊢
        simp only [List.length_cons, List.drop_succ_cons] at h ⊢
        have := ih3 h
        simpa [ctxTokens, Nat.add_assoc] using this

/-- C2 (amended): the greedy budget of `get_context` bounds the total token
count of the selected chunk texts by `max_tokens` (the selection is a prefix
of the result list and stops exactly before the first block whose chunk text
would overflow the budget), and the returned string is the header followed
by the formatted blocks of that selection.  The header, the per-block
`[Source: ..., Page: ...]` markers and the `---` separators are not counted
against the budget, so the token count of the returned string itself can
exceed `max_tokens` plus the header's tokens. -/
theorem claim_C2 (tok : Str → Nat) (results : List SearchResult) (maxT : Nat) :
    ctxTokens tok (takeBudget tok maxT results 0) ≤ maxT ∧
    takeBudget tok maxT results 0 <+: results ∧
    (results.drop (takeBudget tok maxT results 0).length ≠ [] →
      maxT < ctxTokens tok (takeBudget tok maxT results 0) +
        tok ((results.drop (takeBudget tok maxT results 0).length).headI).text) ∧
    getContext tok results maxT =
      (if results.isEmpty then ("No relevant information found.".data) else
        contextHeader results.length (takeBudget tok maxT results 0).length ++
          joinWith ("\n---\n".data) ((takeBudget tok maxT results 0).map formatBlock)) := by
  obtain ⟨h1, h2, h3⟩ := takeBudget_spec tok maxT results 0 (Nat.zero_le maxT)
  exact ⟨by simpa using h1, h2, by simpa using h3, rfl⟩

/-- C2 witness at concrete inputs: with a zero budget and one over-budget
result nothing is selected, and the stopping condition fires on the first
block. -/
theorem claim_C2_witness :
    ctxTokens tokFallback (takeBudget tokFallback 0 [resOverfull] 0) ≤ 0 ∧
    (0 < ctxTokens tokFallback (takeBudget tokFallback 0 [resOverfull] 0) +
      tokFallback ((([resOverfull]).drop
        (takeBudget tokFallback 0 [resOverfull] 0).length).headI).text) :=
  ⟨(claim_C2 tokFallback [resOverfull] 0).1,
   (claim_C2 tokFallback [resOverfull] 0).2.2.1 (by decide)⟩

/-- C2 counterexample: the claim bounds the token count of the whole
returned string by `max_tokens` plus the header's tokens, but the source
and page markers are not budgeted: with the shared fallback counter, one
ten-token chunk under a ten-token budget yields a returned string of 26
tokens while the bound is 10 + 10 = 20. -/
theorem claim_C2_cex :
    tokFallback (getContext tokFallback [resOverfull] 10) = 26 ∧
    tokFallback (contextHeader 1 1) = 10 ∧
    10 + tokFallback (contextHeader 1 1) <
      tokFallback (getContext tokFallback [resOverfull] 10) := by
  refine ⟨by decide, by decide, by decide⟩

theorem joinWith_cons (sep s : Str) (l : List Str) (h : l ≠ []) :
    joinWith sep (s :: l) = s ++ sep ++ joinWith sep l := by
  cases l with
  | nil => exact absurd rfl h
  | cons t rest => rfl

theorem joinWith_append (sep : Str) (a b : List Str) (ha : a ≠ []) (hb : b ≠ []) :
    joinWith sep (a ++ b) = joinWith sep a ++ sep ++ joinWith sep b := by
  induction a with
  | nil => exact absurd rfl ha
  | cons x a2 ih =>
    cases a2 with
    | nil =>
      simp only [List.singleton_append, List.cons_append, List.nil_append]
      rw [joinWith_cons sep x b hb]
      rfl
    | cons y a3 =>
      rw [List.cons_append, joinWith_cons sep x ((y :: a3) ++ b) (by simp),
        joinWith_cons sep x (y :: a3) (by simp), ih (by simp)]
      simp [List.append_assoc]

theorem sumTok_append (tok : Str → Nat) (a b : List Str) :
    sumTok tok (a ++ b) = sumTok tok a + sumTok tok b := by
  simp [sumTok]

theorem sumTok_drop_le (tok : Str → Nat) (l : List Str) (n : Nat) :
    sumTok tok (l.drop n) ≤ sumTok tok l := by
  conv_rhs => rw [← List.take_append_drop n l]
  rw [sumTok_append]
  exact Nat.le_add_left _ _

theorem joinSp_le_sumTok (tok : Str → Nat)
    (hsub : ∀ a b : Str, tok (a ++ ' ' :: b) ≤ tok a + tok b) :
    ∀ l : List Str, l ≠ [] → tok (joinSp l) ≤ sumTok tok l := by
  intro l
  induction l with
  | nil => intro h; exact absurd rfl h
  | cons s l2 ih =>
    intro _
    cases l2 with
    | nil => simp [joinSp, joinWith, sumTok]
    | cons t rest =>
      have h1 : joinSp (s :: t :: rest) = s ++ ' ' :: joinSp (t :: rest) := by
        rw [joinSp, joinWith_cons [' '] s (t :: rest) (by simp)]
        simp [joinSp]
      rw [h1]
      calc tok (s ++ ' ' :: joinSp (t :: rest)) ≤ tok s + tok (joinSp (t :: rest)) :=
        hsub s (joinSp (t :: rest))
      _ ≤ tok s + sumTok tok (t :: rest) := Nat.add_le_add_left (ih (by simp)) _
      _ = sumTok tok (s :: t :: rest) := by simp [sumTok]

theorem joinSp_append_single (tok : Str → Nat)
    (hsub : ∀ a b : Str, tok (a ++ ' ' :: b) ≤ tok a + tok b)
    (l : List Str) (h : l ≠ []) (s : Str) :
    tok (joinSp (l ++ [s])) ≤ tok (joinSp l) + tok s := by
  rw [joinSp, joinWith_append [' '] l [s] h (by simp)]
  simpa [joinSp] using hsub (joinWith [' '] l) s

theorem ovWinAux_snd_le (tok : Str → Nat) (ov : Nat) :
    ∀ (l : List Str) (acc : Nat), acc ≤ ov → (ovWinAux tok ov l acc).2 ≤ ov := by
  intro l
  induction l with
  | nil => intro acc h; exact h
  | cons s rest ih =>
    intro acc h
    by_cases hc : acc + tok s ≤ ov
    · simp only [ovWinAux]
      rw [if_pos hc]
      exact ih (acc + tok s) hc
    · simp only [ovWinAux]
      rw [if_neg hc]
      exact h

theorem ovWinAux_snd_eq (tok : Str → Nat) (ov : Nat) :
    ∀ (l : List Str) (acc : Nat),
      (ovWinAux tok ov l acc).2 = acc + sumTok tok (ovWinAux tok ov l acc).1 := by
  intro l
  induction l with
  | nil => intro acc; simp [ovWinAux, sumTok]
  | cons s rest ih =>
    intro acc
    by_cases hc : acc + tok s ≤ ov
    · simp only [ovWinAux]
      rw [if_pos hc]
      simp only
      rw [ih (acc + tok s), sumTok_append]
      simp [sumTok]
      omega
    · simp only [ovWinAux]
      rw [if_neg hc]
      simp [sumTok]

theorem ovWinAux_fst_rev_pre (tok : Str → Nat) (ov : Nat) :
    ∀ (l : List Str) (acc : Nat), (ovWinAux tok ov l acc).1.reverse <+: l := by
  intro l
  induction l with
  | nil => intro acc; simp [ovWinAux]
  | cons s rest ih =>
    intro acc
    by_cases hc : acc + tok s ≤ ov
    · simp only [ovWinAux]
      rw [if_pos hc]
      simp only [List.reverse_append, List.reverse_cons, List.reverse_nil,
        List.nil_append, List.singleton_append]
      obtain ⟨t, ht⟩ := ih (acc + tok s)
      exact ⟨t, by rw [List.cons_append, ht]⟩
    · simp only [ovWinAux]
      rw [if_neg hc]
      simp

theorem ovWindow_suffix (tok : Str → Nat) (ov : Nat) (cur : List Str) :
    (ovWindow tok ov cur).1 <:+ cur := by
  have h := ovWinAux_fst_rev_pre tok ov cur.reverse 0
  rw [← List.reverse_reverse cur]
  exact List.reverse_prefix.mp (by simpa using h)

theorem ovWindow_sum_le (tok : Str → Nat) (ov : Nat) (cur : List Str) :
    sumTok tok (ovWindow tok ov cur).1 ≤ ov := by
  have h1 := ovWinAux_snd_le tok ov cur.reverse 0 (Nat.zero_le ov)
  have h2 := ovWinAux_snd_eq tok ov cur.reverse 0
  unfold ovWindow
  omega

theorem ovWindow_ne_iff (tok : Str → Nat) (ov : Nat) (cur : List Str) :
    (ovWindow tok ov cur).1 ≠ [] ↔ ∃ x, cur.getLast? = some x ∧ tok x ≤ ov := by
  unfold ovWindow
  rcases hr : cur.reverse with _ | ⟨x, rest⟩
  · have : cur = [] := by simpa using congrArg List.reverse hr
    subst this
    simp [ovWinAux]
  · have hlast : cur.getLast? = some x := by
      rw [← List.head?_reverse, hr]
      rfl
    rw [hlast]
    by_cases hc : 0 + tok x ≤ ov
    · simp only [ovWinAux]
      rw [if_pos hc]
      simp only [ne_eq, List.append_eq_nil, List.cons_ne_self]
      constructor
      · intro _
        exact ⟨x, rfl, by omega⟩
      · intro _
        simp
    · simp only [ovWinAux]
      rw [if_neg hc]
      constructor
      · intro h
        exact absurd rfl h
      · rintro ⟨y, hy, hle⟩
        cases Option.some.inj hy
        omega

theorem forceWords_good (tok : Str → Nat) (cs ov : Nat)
    (hsub : ∀ a b : Str, tok (a ++ ' ' :: b) ≤ tok a + tok b) :
    ∀ (ws : List Str) (emitted : List (List Str)) (temp : List Str) (tempTok : Nat),
      (∀ c ∈ emitted, GoodChunk tok cs ov c) →
      tempTok = sumTok tok temp →
      (tempTok ≤ cs ∨ ∃ w, temp = [w] ∧ cs < tok w) →
      (∀ c ∈ (forceWordsAux tok cs emitted temp tempTok ws).1, GoodChunk tok cs ov c) ∧
      (forceWordsAux tok cs emitted temp tempTok ws).2.2 =
        sumTok tok (forceWordsAux tok cs emitted temp tempTok ws).2.1 ∧
      ((forceWordsAux tok cs emitted temp tempTok ws).2.2 ≤ cs ∨
        ∃ w, (forceWordsAux tok cs emitted temp tempTok ws).2.1 = [w] ∧ cs < tok w) := by
  intro ws
  induction ws with
  | nil =>
    intro emitted temp tempTok h1 h2 h3
    exact ⟨h1, h2, h3⟩
  | cons w ws2 ih =>
    intro emitted temp tempTok h1 h2 h3
    by_cases hc : tempTok + tok w ≤ cs
    · have hb : forceWordsAux tok cs emitted temp tempTok (w :: ws2) =
          forceWordsAux tok cs emitted (temp ++ [w]) (tempTok + tok w) ws2 := by
        simp only [forceWordsAux]
        rw [if_pos hc]
      rw [hb]
      refine ih emitted (temp ++ [w]) (tempTok + tok w) h1 ?_ (Or.inl hc)
      rw [sumTok_append, h2]
      simp [sumTok]
    · have hb : forceWordsAux tok cs emitted temp tempTok (w :: ws2) =
          forceWordsAux tok cs (if temp.isEmpty then emitted else emitted ++ [temp])
            [w] (tok w) ws2 := by
        simp only [forceWordsAux]
        rw [if_neg hc]
      rw [hb]
      refine ih _ [w] (tok w) ?_ (by simp [sumTok]) ?_
      · intro c hcmem
        by_cases hT : temp.isEmpty
        · rw [if_pos hT] at hcmem
          exact h1 c hcmem
        · rw [if_neg hT] at hcmem
          rcases List.mem_append.mp hcmem with hcm | hcm
          · exact h1 c hcm
          · have hceq : c = temp := by simpa using hcm
            subst hceq
            rcases h3 with hle | ⟨v, hv, hbig⟩
            · left
              have hne : c ≠ [] := by simpa [List.isEmpty_iff] using hT
              have := joinSp_le_sumTok tok hsub c hne
              omega
            · right
              exact ⟨v, by rw [hv]; simp, hbig⟩
      · by_cases hw : tok w ≤ cs
        · exact Or.inl hw
        · exact Or.inr ⟨w, rfl, by omega⟩

theorem good_takeLast (tok : Str → Nat) (cs ov : Nat)
    (hsub : ∀ a b : Str, tok (a ++ ' ' :: b) ≤ tok a + tok b)
    (temp : List Str) (n : Nat)
    (hinv : sumTok tok temp ≤ cs ∨ ∃ w, temp = [w] ∧ cs < tok w)
    (hne : takeLast n temp ≠ []) :
    tok (joinSp (takeLast n temp)) ≤ cs + ov ∨ ∃ p ∈ takeLast n temp, cs < tok p := by
  rcases hinv with hle | ⟨w, hw, hbig⟩
  · left
    have h1 := joinSp_le_sumTok tok hsub (takeLast n temp) hne
    have h2 := sumTok_drop_le tok temp (temp.length - n)
    unfold takeLast at *
    omega
  · right
    subst hw
    refine ⟨w, ?_, hbig⟩
    have : takeLast n [w] <:+ [w] := List.drop_suffix _ _
    have hsub2 := this.subset
    rcases hx : takeLast n [w] with _ | ⟨y, rest⟩
    · exact absurd hx hne
    · have hy : y ∈ [w] := hsub2 (by rw [hx]; simp)
      have : y = w := by simpa using hy
      simp [← this]

theorem chunkStep_extend (tok : Str → Nat) (cs ov : Nat) (st : ChunkState) (s : Str)
    (h1 : ¬cs < tok s) (h2 : ¬cs < st.curTok + tok s) :
    chunkStep tok cs ov st s = ⟨st.chunks, st.cur ++ [s], st.curSeed, st.curTok + tok s⟩ := by
  unfold chunkStep
  rw [if_neg h1, if_neg h2]

theorem chunkStep_close_win (tok : Str → Nat) (cs ov : Nat) (st : ChunkState) (s : Str)
    (h1 : ¬cs < tok s) (h2 : cs < st.curTok + tok s) (h3 : 0 < ov ∧ ¬st.cur.isEmpty) :
    chunkStep tok cs ov st s =
      ⟨st.chunks ++ [(st.cur, st.curSeed)], (ovWindow tok ov st.cur).1 ++ [s],
       (ovWindow tok ov st.cur).1, (ovWindow tok ov st.cur).2 + tok s⟩ := by
  unfold chunkStep
  rw [if_neg h1, if_pos h2, if_neg h3.2, if_pos h3]

theorem chunkStep_close_plain (tok : Str → Nat) (cs ov : Nat) (st : ChunkState) (s : Str)
    (h1 : ¬cs < tok s) (h2 : cs < st.curTok + tok s) (h3 : ¬(0 < ov ∧ ¬st.cur.isEmpty)) :
    chunkStep tok cs ov st s =
      ⟨if st.cur.isEmpty then st.chunks else st.chunks ++ [(st.cur, st.curSeed)],
       [s], [], tok s⟩ := by
  unfold chunkStep
  rw [if_neg h1, if_pos h2, if_neg h3]

theorem chunkStep_big_none (tok : Str → Nat) (cs ov : Nat) (st : ChunkState) (s : Str)
    (h1 : cs < tok s) (h4 : (forceWordsAux tok cs [] [] 0 (words s)).2.1.isEmpty) :
    chunkStep tok cs ov st s =
      ⟨(if st.cur.isEmpty then st.chunks else st.chunks ++ [(st.cur, st.curSeed)]) ++
        (forceWordsAux tok cs [] [] 0 (words s)).1.map (fun c => (c, ([] : List Str))),
       [], [], 0⟩ := by
  unfold chunkStep
  rw [if_pos h1, if_pos h4]

theorem chunkStep_big_some (tok : Str → Nat) (cs ov : Nat) (st : ChunkState) (s : Str)
    (h1 : cs < tok s) (h4 : ¬(forceWordsAux tok cs [] [] 0 (words s)).2.1.isEmpty) :
    chunkStep tok cs ov st s =
      ⟨((if st.cur.isEmpty then st.chunks else st.chunks ++ [(st.cur, st.curSeed)]) ++
        (forceWordsAux tok cs [] [] 0 (words s)).1.map (fun c => (c, ([] : List Str)))) ++
        [((forceWordsAux tok cs [] [] 0 (words s)).2.1, [])],
       if 0 < ov then takeLast ov (forceWordsAux tok cs [] [] 0 (words s)).2.1 else [],
       [],
       tok (joinSp (if 0 < ov then takeLast ov (forceWordsAux tok cs [] [] 0 (words s)).2.1 else []))⟩ := by
  unfold chunkStep
  rw [if_pos h1, if_neg h4]

theorem chunkStep_good (tok : Str → Nat) (cs ov : Nat)
    (hsub : ∀ a b : Str, tok (a ++ ' ' :: b) ≤ tok a + tok b)
    (st : ChunkState) (s : Str)
    (hA : ∀ c ∈ st.chunks, GoodChunk tok cs ov c.1)
    (hB : st.cur ≠ [] → tok (joinSp st.cur) ≤ st.curTok)
    (hC : st.cur ≠ [] → st.curTok ≤ cs + ov ∨ ∃ p ∈ st.cur, cs < tok p) :
    (∀ c ∈ (chunkStep tok cs ov st s).chunks, GoodChunk tok cs ov c.1) ∧
    ((chunkStep tok cs ov st s).cur ≠ [] →
      tok (joinSp (chunkStep tok cs ov st s).cur) ≤ (chunkStep tok cs ov st s).curTok) ∧
    ((chunkStep tok cs ov st s).cur ≠ [] →
      (chunkStep tok cs ov st s).curTok ≤ cs + ov ∨
        ∃ p ∈ (chunkStep tok cs ov st s).cur, cs < tok p) := by
  have hGoodClose : st.cur ≠ [] → GoodChunk tok cs ov st.cur := by
    intro h
    rcases hC h with hle | hex
    · exact Or.inl ((hB h).trans hle)
    · exact Or.inr hex
  have hChunks1 : ∀ c ∈ (if st.cur.isEmpty then st.chunks
      else st.chunks ++ [(st.cur, st.curSeed)]), GoodChunk tok cs ov c.1 := by
    by_cases hcur : st.cur.isEmpty
    · rw [if_pos hcur]
      exact hA
    · rw [if_neg hcur]
      intro c hc
      rcases List.mem_append.mp hc with hm | hm
      · exact hA c hm
      · have : c = (st.cur, st.curSeed) := by simpa using hm
        subst this
        exact hGoodClose (by simpa [List.isEmpty_iff] using hcur)
  by_cases h1 : cs < tok s
  · have hfw := forceWords_good tok cs ov hsub (words s) [] [] 0
      (by intro c hc; simp at hc) (by simp [sumTok]) (Or.inl (Nat.zero_le cs))
    by_cases h4 : (forceWordsAux tok cs [] [] 0 (words s)).2.1.isEmpty
    · rw [chunkStep_big_none tok cs ov st s h1 h4]
      dsimp only
      refine ⟨?_, by simp, by simp⟩
      intro c hc
      rcases List.mem_append.mp hc with hm | hm
      · exact hChunks1 c hm
      · obtain ⟨c1, hc1, hceq⟩ := List.mem_map.mp hm
        rw [← hceq]
        exact hfw.1 c1 hc1
    · rw [chunkStep_big_some tok cs ov st s h1 h4]
      dsimp only
      have htempne : (forceWordsAux tok cs [] [] 0 (words s)).2.1 ≠ [] := by
        simpa [List.isEmpty_iff] using h4
      have hinv3 : sumTok tok (forceWordsAux tok cs [] [] 0 (words s)).2.1 ≤ cs ∨
          ∃ w, (forceWordsAux tok cs [] [] 0 (words s)).2.1 = [w] ∧ cs < tok w := by
        rcases hfw.2.2 with hle | hex
        · exact Or.inl (hfw.2.1 ▸ hle)
        · exact Or.inr hex
      refine ⟨?_, ?_, ?_⟩
      · intro c hc
        rcases List.mem_append.mp hc with hm | hm
        · rcases List.mem_append.mp hm with hm2 | hm2
          · exact hChunks1 c hm2
          · obtain ⟨c1, hc1, hceq⟩ := List.mem_map.mp hm2
            rw [← hceq]
            exact hfw.1 c1 hc1
        · have : c = ((forceWordsAux tok cs [] [] 0 (words s)).2.1, []) := by
            simpa using hm
          subst this
          rcases hinv3 with hle | ⟨w, hw, hbig⟩
          · exact Or.inl ((joinSp_le_sumTok tok hsub _ htempne).trans
              (hle.trans (Nat.le_add_right cs ov)))
          · exact Or.inr ⟨w, by rw [hw]; simp, hbig⟩
      · intro _
        exact Nat.le_refl _
      · intro hne
        by_cases hov : 0 < ov
        · rw [if_pos hov] at hne ⊢
          exact good_takeLast tok cs ov hsub _ ov hinv3 hne
        · rw [if_neg hov] at hne
          exact absurd rfl hne
  · by_cases h2 : cs < st.curTok + tok s
    · by_cases h3 : 0 < ov ∧ ¬st.cur.isEmpty
      · rw [chunkStep_close_win tok cs ov st s h1 h2 h3]
        dsimp only
        have hcurne : st.cur ≠ [] := by simpa [List.isEmpty_iff] using h3.2
        refine ⟨?_, ?_, ?_⟩
        · intro c hc
          rcases List.mem_append.mp hc with hm | hm
          · exact hA c hm
          · have : c = (st.cur, st.curSeed) := by simpa using hm
            subst this
            exact hGoodClose hcurne
        · intro _
          by_cases hwin : (ovWindow tok ov st.cur).1 = []
          · rw [hwin]
            simp only [List.nil_append]
            have : joinSp [s] = s := rfl
            rw [this]
            exact Nat.le_add_left _ _
          · have hj := joinSp_append_single tok hsub (ovWindow tok ov st.cur).1 hwin s
            have hjs := joinSp_le_sumTok tok hsub (ovWindow tok ov st.cur).1 hwin
            have hsum : (ovWindow tok ov st.cur).2 =
                sumTok tok (ovWindow tok ov st.cur).1 := by
              have := ovWinAux_snd_eq tok ov st.cur.reverse 0
              unfold ovWindow
              omega
            omega
        · intro _
          left
          have hw1 : (ovWindow tok ov st.cur).2 ≤ ov :=
            ovWinAux_snd_le tok ov st.cur.reverse 0 (Nat.zero_le ov)
          omega
      · rw [chunkStep_close_plain tok cs ov st s h1 h2 h3]
        dsimp only
        refine ⟨hChunks1, ?_, ?_⟩
        · intro _
          exact Nat.le_refl _
        · intro _
          left
          omega
    · rw [chunkStep_extend tok cs ov st s h1 h2]
      dsimp only
      refine ⟨hA, ?_, ?_⟩
      · intro _
        by_cases hcc : st.cur = []
        · rw [hcc]
          simp only [List.nil_append]
          have : joinSp [s] = s := rfl
          rw [this]
          exact Nat.le_add_left _ _
        · have hj := joinSp_append_single tok hsub st.cur hcc s
          have := hB hcc
          omega
      · intro _
        left
        omega

theorem chunkFold_good (tok : Str → Nat) (cs ov : Nat)
    (hsub : ∀ a b : Str, tok (a ++ ' ' :: b) ≤ tok a + tok b) :
    ∀ (sents : List Str) (st : ChunkState),
      (∀ c ∈ st.chunks, GoodChunk tok cs ov c.1) →
      (st.cur ≠ [] → tok (joinSp st.cur) ≤ st.curTok) →
      (st.cur ≠ [] → st.curTok ≤ cs + ov ∨ ∃ p ∈ st.cur, cs < tok p) →
      (∀ c ∈ (sents.foldl (chunkStep tok cs ov) st).chunks, GoodChunk tok cs ov c.1) ∧
      ((sents.foldl (chunkStep tok cs ov) st).cur ≠ [] →
        tok (joinSp (sents.foldl (chunkStep tok cs ov) st).cur) ≤
          (sents.foldl (chunkStep tok cs ov) st).curTok) ∧
      ((sents.foldl (chunkStep tok cs ov) st).cur ≠ [] →
        (sents.foldl (chunkStep tok cs ov) st).curTok ≤ cs + ov ∨
          ∃ p ∈ (sents.foldl (chunkStep tok cs ov) st).cur, cs < tok p) := by
  intro sents
  induction sents with
  | nil =>
    intro st hA hB hC
    exact ⟨hA, hB, hC⟩
  | cons s rest ih =>
    intro st hA hB hC
    obtain ⟨hA2, hB2, hC2⟩ := chunkStep_good tok cs ov hsub st s hA hB hC
    simpa using ih (chunkStep tok cs ov st s) hA2 hB2 hC2

theorem chunkTextPieces_good (tok : Str → Nat) (cs ov : Nat)
    (hsub : ∀ a b : Str, tok (a ++ ' ' :: b) ≤ tok a + tok b)
    (sents : List Str) :
    ∀ c ∈ chunkTextPieces tok sents cs ov, GoodChunk tok cs ov c := by
  intro c hc
  obtain ⟨hA, hB, hC⟩ := chunkFold_good tok cs ov hsub sents ⟨[], [], [], 0⟩
    (by intro x hx; simp at hx) (by intro h; exact absurd rfl h)
    (by intro h; exact absurd rfl h)
  unfold chunkTextPieces chunkTextI at hc
  obtain ⟨cp, hcp, hceq⟩ := List.mem_map.mp hc
  subst hceq
  set fin := List.foldl (chunkStep tok cs ov) ⟨[], [], [], 0⟩ sents with hfin
  by_cases hfc : fin.cur.isEmpty
  · rw [if_pos hfc] at hcp
    exact hA cp hcp
  · rw [if_neg hfc] at hcp
    rcases List.mem_append.mp hcp with hm | hm
    · exact hA cp hm
    · have : cp = (fin.cur, fin.curSeed) := by simpa using hm
      subst this
      have hne : fin.cur ≠ [] := by simpa [List.isEmpty_iff] using hfc
      rcases hC hne with hle | hex
      · exact Or.inl ((hB hne).trans hle)
      · exact Or.inr hex

/-- C1 (amended): whenever the token counter is subadditive across a
single-space join (`tok(a + " " + b) ≤ tok(a) + tok(b)`), every chunk that
`chunk_text` returns is the space-join of a piece list whose joined token
count is at most `chunk_size + overlap` — not `chunk_size` — unless the
chunk contains a word of a force-split sentence that alone exceeds
`chunk_size`.  The extra `overlap` slack comes from re-seeding a new chunk
with the overlap window before the first new sentence is counted against
`chunk_size`. -/
theorem claim_C1 (tok : Str → Nat) (split : Str → List Str) (text : Str) (cs ov : Nat)
    (hsub : ∀ a b : Str, tok (a ++ ' ' :: b) ≤ tok a + tok b) :
    (∀ c ∈ chunkText tok split text cs ov,
      ∃ pieces ∈ chunkTextPieces tok (split text) cs ov,
        c = joinSp pieces ∧ GoodChunk tok cs ov pieces) ∧
    (∀ pieces ∈ chunkTextPieces tok (split text) cs ov, GoodChunk tok cs ov pieces) := by
  constructor
  · intro c hc
    unfold chunkText at hc
    by_cases ht : (text.isEmpty : Bool)
    · rw [if_pos ht] at hc
      simp at hc
    · rw [if_neg ht] at hc
      by_cases hs : (split text).isEmpty
      · rw [if_pos hs] at hc
        simp at hc
      · rw [if_neg hs] at hc
        obtain ⟨pieces, hp, hpeq⟩ := List.mem_map.mp hc
        exact ⟨pieces, hp, hpeq.symm,
          chunkTextPieces_good tok cs ov hsub (split text) pieces hp⟩
  · exact chunkTextPieces_good tok cs ov hsub (split text)

/-- C1 witness at concrete inputs: the constant-one token counter is
subadditive, and the single piece list produced from the one-sentence text
satisfies the bound. -/
theorem claim_C1_witness :
    GoodChunk (fun _ => 1) 1 1 [("ab".data)] :=
  (claim_C1 (fun _ => 1) (fun t => [t]) ("ab".data) 1 1
    (fun _ _ => Nat.le_add_right 1 1)).2 [("ab".data)] (by decide)

/-- C1 counterexample: with the chunker's own fallback token counter and
fallback sentence splitter, `chunk_size = 10`, `overlap = 5` and a text
whose three sentences count 3, 5 and 6 tokens (all within `chunk_size`, so
no forced split anywhere), the second emitted chunk is seeded with the
five-token overlap window before its six-token sentence is counted and
comes out at 11 tokens, exceeding `chunk_size`. -/
theorem claim_C1_cex :
    chunkText tokFallback splitFallback ("w w w. w w w w. w w w w w.".data) 10 5 =
      [("w w w w w w w".data), ("w w w w w w w w w".data)] ∧
    tokFallback ("w w w w w w w w w".data) = 11 ∧
    ((splitFallback ("w w w. w w w w. w w w w w.".data)).all
      (fun s => tokFallback s ≤ 10)) = true ∧
    ((splitFallback ("w w w. w w w w. w w w w w.".data)).all
      (fun s => (words s).all (fun w => tokFallback w ≤ 10))) = true := by
  refine ⟨by decide, by decide, by decide, by decide⟩

theorem chunkStep_seed (tok : Str → Nat) (cs ov : Nat) (st : ChunkState) (s : Str)
    (hts : ¬cs < tok s)
    (I1 : List.Chain' (SeedAdj tok ov) st.chunks)
    (I2 : st.cur = [] → st.chunks = [] ∧ st.curSeed = [])
    (I3 : st.cur ≠ [] →
      st.curSeed <+: st.cur ∧ sumTok tok st.curSeed ≤ ov ∧
      (∀ lastC ∈ st.chunks.getLast?, st.curSeed <:+ lastC.1 ∧
        (st.curSeed ≠ [] ↔ 0 < ov ∧ ∃ x, lastC.1.getLast? = some x ∧ tok x ≤ ov)) ∧
      (st.chunks = [] → st.curSeed = [])) :
    List.Chain' (SeedAdj tok ov) (chunkStep tok cs ov st s).chunks ∧
    ((chunkStep tok cs ov st s).cur = [] →
      (chunkStep tok cs ov st s).chunks = [] ∧ (chunkStep tok cs ov st s).curSeed = []) ∧
    ((chunkStep tok cs ov st s).cur ≠ [] →
      (chunkStep tok cs ov st s).curSeed <+: (chunkStep tok cs ov st s).cur ∧
      sumTok tok (chunkStep tok cs ov st s).curSeed ≤ ov ∧
      (∀ lastC ∈ (chunkStep tok cs ov st s).chunks.getLast?,
        (chunkStep tok cs ov st s).curSeed <:+ lastC.1 ∧
        ((chunkStep tok cs ov st s).curSeed ≠ [] ↔
          0 < ov ∧ ∃ x, lastC.1.getLast? = some x ∧ tok x ≤ ov)) ∧
      ((chunkStep tok cs ov st s).chunks = [] → (chunkStep tok cs ov st s).curSeed = [])) := by
  have hCloseAdj : st.cur ≠ [] →
      List.Chain' (SeedAdj tok ov) (st.chunks ++ [(st.cur, st.curSeed)]) := by
    intro hne
    rw [List.chain'_append]
    refine ⟨I1, List.chain'_singleton _, ?_⟩
    intro x hx y hy
    have hyeq : y = (st.cur, st.curSeed) := by
      have := hy
      simp at this
      exact this.symm
    subst hyeq
    obtain ⟨j1, j2, j3, _⟩ := I3 hne
    obtain ⟨k1, k2⟩ := j3 x hx
    exact ⟨k1, j1, j2, k2⟩
  by_cases h2 : cs < st.curTok + tok s
  · by_cases h3 : 0 < ov ∧ ¬st.cur.isEmpty
    · rw [chunkStep_close_win tok cs ov st s hts h2 h3]
      dsimp only
      have hcurne : st.cur ≠ [] := by simpa [List.isEmpty_iff] using h3.2
      refine ⟨hCloseAdj hcurne, by simp, ?_⟩
      intro _
      refine ⟨List.prefix_append _ _, ovWindow_sum_le tok ov st.cur, ?_, by simp⟩
      intro lastC hl
      have : lastC = (st.cur, st.curSeed) := by
        rw [List.getLast?_concat] at hl
        simp at hl
        exact hl.symm
      subst this
      refine ⟨ovWindow_suffix tok ov st.cur, ?_⟩
      rw [ovWindow_ne_iff tok ov st.cur]
      constructor
      · intro hex
        exact ⟨h3.1, hex⟩
      · intro hx
        exact hx.2
    · rw [chunkStep_close_plain tok cs ov st s hts h2 h3]
      dsimp only
      by_cases hcur : st.cur.isEmpty
      · rw [if_pos hcur]
        have hc0 := I2 (by simpa [List.isEmpty_iff] using hcur)
        refine ⟨I1, by simp, ?_⟩
        intro _
        rw [hc0.1]
        refine ⟨List.nil_prefix, by simp [sumTok], ?_, fun _ => rfl⟩
        intro lastC hl
        simp at hl
      · rw [if_neg hcur]
        have hcurne : st.cur ≠ [] := by simpa [List.isEmpty_iff] using hcur
        have hov : ¬0 < ov := by
          by_contra hc
          exact h3 ⟨hc, hcur⟩
        refine ⟨hCloseAdj hcurne, by simp, ?_⟩
        intro _
        refine ⟨List.nil_prefix, by simp [sumTok], ?_, by simp⟩
        intro lastC hl
        have : lastC = (st.cur, st.curSeed) := by
          rw [List.getLast?_concat] at hl
          simp at hl
          exact hl.symm
        subst this
        refine ⟨List.nil_suffix, ?_⟩
        constructor
        · intro hfalse
          exact absurd rfl hfalse
        · intro hx
          exact absurd hx.1 hov
  · rw [chunkStep_extend tok cs ov st s hts h2]
    dsimp only
    refine ⟨I1, by simp, ?_⟩
    intro _
    by_cases hcc : st.cur = []
    · obtain ⟨hc1, hc2⟩ := I2 hcc
      rw [hcc, hc1, hc2]
      refine ⟨List.nil_prefix, by simp [sumTok], ?_, fun _ => rfl⟩
      intro lastC hl
      simp at hl
    · obtain ⟨j1, j2, j3, j4⟩ := I3 hcc
      exact ⟨j1.trans (List.prefix_append _ _), j2, j3, j4⟩

theorem chunkFold_seed (tok : Str → Nat) (cs ov : Nat) :
    ∀ (sents : List Str), (∀ s ∈ sents, tok s ≤ cs) → ∀ (st : ChunkState),
      List.Chain' (SeedAdj tok ov) st.chunks →
      (st.cur = [] → st.chunks = [] ∧ st.curSeed = []) →
      (st.cur ≠ [] →
        st.curSeed <+: st.cur ∧ sumTok tok st.curSeed ≤ ov ∧
        (∀ lastC ∈ st.chunks.getLast?, st.curSeed <:+ lastC.1 ∧
          (st.curSeed ≠ [] ↔ 0 < ov ∧ ∃ x, lastC.1.getLast? = some x ∧ tok x ≤ ov)) ∧
        (st.chunks = [] → st.curSeed = [])) →
      List.Chain' (SeedAdj tok ov) (sents.foldl (chunkStep tok cs ov) st).chunks ∧
      ((sents.foldl (chunkStep tok cs ov) st).cur = [] →
        (sents.foldl (chunkStep tok cs ov) st).chunks = [] ∧
        (sents.foldl (chunkStep tok cs ov) st).curSeed = []) ∧
      ((sents.foldl (chunkStep tok cs ov) st).cur ≠ [] →
        (sents.foldl (chunkStep tok cs ov) st).curSeed <+:
          (sents.foldl (chunkStep tok cs ov) st).cur ∧
        sumTok tok (sents.foldl (chunkStep tok cs ov) st).curSeed ≤ ov ∧
        (∀ lastC ∈ (sents.foldl (chunkStep tok cs ov) st).chunks.getLast?,
          (sents.foldl (chunkStep tok cs ov) st).curSeed <:+ lastC.1 ∧
          ((sents.foldl (chunkStep tok cs ov) st).curSeed ≠ [] ↔
            0 < ov ∧ ∃ x, lastC.1.getLast? = some x ∧ tok x ≤ ov)) ∧
        ((sents.foldl (chunkStep tok cs ov) st).chunks = [] →
          (sents.foldl (chunkStep tok cs ov) st).curSeed = [])) := by
  intro sents
  induction sents with
  | nil =>
    intro _ st I1 I2 I3
    exact ⟨I1, I2, I3⟩
  | cons s rest ih =>
    intro hall st I1 I2 I3
    have hts : ¬cs < tok s := Nat.not_lt.mpr (hall s (by simp))
    obtain ⟨J1, J2, J3⟩ := chunkStep_seed tok cs ov st s hts I1 I2 I3
    simpa using ih (fun x hx => hall x (by simp [hx])) (chunkStep tok cs ov st s) J1 J2 J3

/-- C7 (amended): when no sentence exceeds `chunk_size` (no forced
word-level splits), every pair of consecutive chunks satisfies `SeedAdj`:
the later chunk opens with the overlap seed, which is a suffix of the
earlier chunk's pieces and a prefix of the later chunk's, its total token
count is at most `overlap`, and it is nonempty exactly when `overlap > 0`
and the earlier chunk's trailing piece fits within the overlap budget — so
the overlap can legitimately be zero between chunks of one section when the
trailing sentence is larger than `overlap`. -/
theorem claim_C7 (tok : Str → Nat) (sents : List Str) (cs ov : Nat)
    (hforce : ∀ s ∈ sents, tok s ≤ cs) :
    List.Chain' (SeedAdj tok ov) (chunkTextI tok sents cs ov) := by
  obtain ⟨J1, J2, J3⟩ := chunkFold_seed tok cs ov sents hforce ⟨[], [], [], 0⟩
    (List.chain'_nil) (fun _ => ⟨rfl, rfl⟩) (fun h => absurd rfl h)
  unfold chunkTextI
  set fin := List.foldl (chunkStep tok cs ov) ⟨[], [], [], 0⟩ sents with hfin
  by_cases hfc : fin.cur.isEmpty
  · rw [if_pos hfc]
    exact J1
  · rw [if_neg hfc]
    have hne : fin.cur ≠ [] := by simpa [List.isEmpty_iff] using hfc
    obtain ⟨j1, j2, j3, _⟩ := J3 hne
    rw [List.chain'_append]
    refine ⟨J1, List.chain'_singleton _, ?_⟩
    intro x hx y hy
    have hyeq : y = (fin.cur, fin.curSeed) := by
      have := hy
      simp at this
      exact this.symm
    subst hyeq
    obtain ⟨k1, k2⟩ := j3 x hx
    exact ⟨k1, j1, j2, k2⟩

/-- C7 witness at concrete inputs: constant-one token counter, two
one-token sentences, `chunk_size = 1`, `overlap = 1`: the second chunk is
seeded with the first chunk's sentence. -/
theorem claim_C7_witness :
    List.Chain' (SeedAdj (fun _ => 1) 1)
      (chunkTextI (fun _ => 1) [("a".data), ("b".data)] 1 1) :=
  claim_C7 (fun _ => 1) [("a".data), ("b".data)] 1 1 (by decide)

/-- C7 counterexample: both directions of the claim fail on the code.
With the fallback counter, `chunk_size = 10` and `overlap = 2`, the two
seven-word sentences (9 tokens each, no forced split, same `chunk_text`
call) produce consecutive chunks sharing no material at all — the overlap
is 0, not positive.  With `overlap = 4` and an oversized first sentence,
the forced word-level split seeds the next chunk with the last 4 words
(a word-count slice, not a token budget), and the shared material between
the two consecutive chunks counts 5 tokens, exceeding `overlap`. -/
theorem claim_C7_cex :
    chunkText tokFallback splitFallback ("a a a a a a a. b b b b b b b.".data) 10 2 =
      [("a a a a a a a".data), ("b b b b b b b".data)] ∧
    ((splitFallback ("a a a a a a a. b b b b b b b.".data)).all
      (fun s => tokFallback s ≤ 10)) = true ∧
    commonOverlapLen ("a a a a a a a".data) ("b b b b b b b".data) = 0 ∧
    chunkText tokFallback splitFallback ("x x x x x x x x x. y y y y.".data) 10 4 =
      [("x x x x x x x x x".data), ("x x x x y y y y".data)] ∧
    commonOverlapLen ("x x x x x x x x x".data) ("x x x x y y y y".data) = 7 ∧
    tokFallback (("x x x x y y y y".data).take 7) = 5 ∧
    4 < tokFallback (("x x x x y y y y".data).take
      (commonOverlapLen ("x x x x x x x x x".data) ("x x x x y y y y".data))) := by
  refine ⟨by decide, by decide, by decide, by decide, by decide, by decide, by decide⟩

theorem splitChars_ne_nil (p : Char → Bool) (s : Str) : splitChars p s ≠ [] := by
  cases s with
  | nil => simp [splitChars]
  | cons c rest =>
    simp only [splitChars]
    by_cases hc : p c
    · rw [if_pos hc]
      simp
    · rw [if_neg hc]
      simp

theorem splitChars_headI_pre (p : Char → Bool) :
    ∀ s : Str, (splitChars p s).headI <+: s := by
  intro s
  induction s with
  | nil => simp [splitChars]
  | cons c rest ih =>
    simp only [splitChars]
    by_cases hc : p c
    · rw [if_pos hc]
      simp
    · rw [if_neg hc]
      show c :: (splitChars p rest).headI <+: c :: rest
      obtain ⟨t, ht⟩ := ih
      exact ⟨t, by rw [List.cons_append, ht]⟩

theorem splitChars_mem_inf (p : Char → Bool) :
    ∀ (s : Str) (x : Str), x ∈ splitChars p s → x <:+: s := by
  intro s
  induction s with
  | nil =>
    intro x hx
    simp [splitChars] at hx
    subst hx
    exact List.infix_rfl
  | cons c rest ih =>
    intro x hx
    simp only [splitChars] at hx
    by_cases hc : p c
    · rw [if_pos hc] at hx
      rcases List.mem_cons.mp hx with hx1 | hx1
      · subst hx1
        exact List.nil_infix
      · exact (ih x hx1).trans (List.suffix_cons c rest).isInfix
    · rw [if_neg hc] at hx
      rcases List.mem_cons.mp hx with hx1 | hx1
      · subst hx1
        obtain ⟨t, ht⟩ := splitChars_headI_pre p rest
        exact List.IsPrefix.isInfix ⟨t, by rw [List.cons_append, ht]⟩
      · exact (ih x (List.mem_of_mem_tail hx1)).trans (List.suffix_cons c rest).isInfix

theorem trimStr_inf_self (s : Str) : trimStr s <:+: s := by
  unfold trimStr
  generalize hA : s.dropWhile isSpc = a
  have h1 : a <:+ s := by
    rw [← hA]
    exact List.dropWhile_suffix isSpc
  have h3 : a.reverse.dropWhile isSpc <:+ a.reverse := List.dropWhile_suffix isSpc
  have h2 : (a.reverse.dropWhile isSpc).reverse <+: a := by
    have h4 := List.reverse_prefix.mpr h3
    simpa using h4
  exact h2.isInfix.trans h1.isInfix

theorem words_mem_inf (s w : Str) (hw : w ∈ words s) : w <:+: s := by
  unfold words at hw
  exact splitChars_mem_inf isSpc s w (List.mem_of_mem_filter hw)

theorem splitFallback_inf (t s : Str) (hs : s ∈ splitFallback t) : s <:+: t := by
  unfold splitFallback at hs
  have hs2 := List.mem_of_mem_filter hs
  obtain ⟨seg, hseg, heq⟩ := List.mem_map.mp hs2
  subst heq
  exact (trimStr_inf_self seg).trans (splitChars_mem_inf _ t seg hseg)

theorem joinWith_splitChars (nl : Char) :
    ∀ t : Str, joinWith [nl] (splitChars (fun c => c == nl) t) = t := by
  intro t
  induction t with
  | nil => rfl
  | cons c rest ih =>
    simp only [splitChars]
    by_cases hc : (c == nl) = true
    · rw [if_pos hc]
      rw [joinWith_cons [nl] [] (splitChars (fun c => c == nl) rest)
        (splitChars_ne_nil _ rest), ih]
      have : c = nl := by simpa using hc
      rw [this]
      rfl
    · rw [if_neg hc]
      rcases hr : splitChars (fun c => c == nl) rest with _ | ⟨h0, t0⟩
      · exact absurd hr (splitChars_ne_nil _ rest)
      · rw [hr] at ih
        cases t0 with
        | nil =>
          simp only [List.headI, List.tail_cons]
          simp only [joinWith] at ih ⊢
          rw [ih]
        | cons h1 t1 =>
          simp only [List.headI, List.tail_cons]
          rw [joinWith_cons [nl] (c :: h0) (h1 :: t1) (by simp),
            joinWith_cons [nl] h0 (h1 :: t1) (by simp)] at *
          rw [← ih]
          simp

theorem joinWith_pre_of_append (sep : Str) (a b : List Str) (ha : a ≠ []) :
    joinWith sep a <+: joinWith sep (a ++ b) := by
  cases b with
  | nil => simp
  | cons x bs =>
    rw [joinWith_append sep a (x :: bs) ha (by simp)]
    exact ⟨sep ++ joinWith sep (x :: bs), by simp⟩

theorem joinWith_suf_of_append (sep : Str) (a b : List Str) (hb : b ≠ []) :
    joinWith sep b <:+ joinWith sep (a ++ b) := by
  cases a with
  | nil => simp
  | cons x as =>
    rw [joinWith_append sep (x :: as) b (by simp) hb]
    exact ⟨joinWith sep (x :: as) ++ sep, by simp⟩

theorem closeSection_mem (cur : Option (Str × Nat)) (curText : List Str)
    (sec : DocSection) (h : sec ∈ closeSection cur curText) :
    sec.text = joinNl curText ∧ curText ≠ [] := by
  unfold closeSection at h
  cases cur with
  | none => simp at h
  | some ti =>
    dsimp only at h
    by_cases hct : curText.isEmpty
    · rw [if_pos hct] at h
      simp at h
    · rw [if_neg hct] at h
      have : sec = ⟨ti.1, ti.2, joinNl curText⟩ := by simpa using h
      subst this
      exact ⟨rfl, by simpa [List.isEmpty_iff] using hct⟩

theorem secAux_inf :
    ∀ (L : List Str) (cur : Option (Str × Nat)) (curText : List Str) (idx : Nat)
      (sec : DocSection), sec ∈ identifySectionsAux cur curText idx L →
      sec.text <:+: joinNl (curText ++ L) := by
  intro L
  induction L with
  | nil =>
    intro cur curText idx sec hs
    obtain ⟨hteq, _⟩ := closeSection_mem cur curText sec hs
    rw [hteq, List.append_nil]
  | cons line rest ih =>
    intro cur curText idx sec hs
    simp only [identifySectionsAux] at hs
    rcases hh : headerTitle (trimStr line) with _ | title
    · rw [hh] at hs
      have := ih cur (curText ++ [line]) idx sec hs
      rw [List.append_assoc] at this
      simpa using this
    · rw [hh] at hs
      rcases List.mem_append.mp hs with hm | hm
      · obtain ⟨hteq, hct⟩ := closeSection_mem cur curText sec hm
        rw [hteq]
        exact (joinWith_pre_of_append ['\n'] curText (line :: rest) hct).isInfix
      · have hrest := ih (some (title, idx)) [] (idx + 1) sec hm
        simp only [List.nil_append] at hrest
        cases rest with
        | nil =>
          have : sec.text = [] := by
            have h0 := hrest
            simp only [joinNl, joinWith] at h0
            exact List.eq_nil_of_infix_nil h0
          rw [this]
          exact List.nil_infix
        | cons r0 rs =>
          refine hrest.trans (List.IsSuffix.isInfix ?_)
          have := joinWith_suf_of_append ['\n'] (curText ++ [line]) (r0 :: rs) (by simp)
          rw [List.append_assoc] at this
          simpa using this

theorem identifySections_sec_inf (text : Str) (secs : List DocSection)
    (hsecs : identifySections text = some secs) :
    ∀ sec ∈ secs, sec.text <:+: text := by
  intro sec hsec
  unfold identifySections at hsecs
  by_cases hempty : (identifySectionsAux none [] 0
      (splitChars (fun c => c == '\n') text)).isEmpty
  · rw [if_pos hempty] at hsecs
    exact absurd hsecs (by simp)
  · rw [if_neg hempty] at hsecs
    have hmem : sec ∈ identifySectionsAux none [] 0
        (splitChars (fun c => c == '\n') text) := by
      rw [Option.some.inj hsecs]
      exact hsec
    have := secAux_inf (splitChars (fun c => c == '\n') text) none [] 0 sec hmem
    simp only [List.nil_append] at this
    rwa [joinNl, joinWith_splitChars '\n' text] at this

theorem forceWords_pieces (tok : Str → Nat) (cs : Nat) (P : Str → Prop) :
    ∀ (ws : List Str) (emitted : List (List Str)) (temp : List Str) (tempTok : Nat),
      (∀ c ∈ emitted, c ≠ [] ∧ ∀ p ∈ c, P p) → (∀ p ∈ temp, P p) → (∀ w ∈ ws, P w) →
      (∀ c ∈ (forceWordsAux tok cs emitted temp tempTok ws).1, c ≠ [] ∧ ∀ p ∈ c, P p) ∧
      (∀ p ∈ (forceWordsAux tok cs emitted temp tempTok ws).2.1, P p) := by
  intro ws
  induction ws with
  | nil =>
    intro emitted temp tempTok h1 h2 _
    exact ⟨h1, h2⟩
  | cons w ws2 ih =>
    intro emitted temp tempTok h1 h2 h3
    simp only [forceWordsAux]
    by_cases hc : tempTok + tok w ≤ cs
    · rw [if_pos hc]
      refine ih emitted (temp ++ [w]) (tempTok + tok w) h1 ?_ (fun x hx => h3 x (by simp [hx]))
      intro p hp
      rcases List.mem_append.mp hp with hm | hm
      · exact h2 p hm
      · have : p = w := by simpa using hm
        subst this
        exact h3 p (by simp)
    · rw [if_neg hc]
      refine ih _ [w] (tok w) ?_ ?_ (fun x hx => h3 x (by simp [hx]))
      · intro c hcm
        by_cases hT : temp.isEmpty
        · rw [if_pos hT] at hcm
          exact h1 c hcm
        · rw [if_neg hT] at hcm
          rcases List.mem_append.mp hcm with hm | hm
          · exact h1 c hm
          · have : c = temp := by simpa using hm
            subst this
            exact ⟨by simpa [List.isEmpty_iff] using hT, h2⟩
      · intro p hp
        have : p = w := by simpa using hp
        subst this
        exact h3 p (by simp)

theorem chunkStep_pieces (tok : Str → Nat) (cs ov : Nat) (P : Str → Prop)
    (st : ChunkState) (s : Str) (hs : P s) (hw : ∀ w ∈ words s, P w)
    (hchunks : ∀ c ∈ st.chunks, c.1 ≠ [] ∧ ∀ p ∈ c.1, P p)
    (hcur : ∀ p ∈ st.cur, P p) :
    (∀ c ∈ (chunkStep tok cs ov st s).chunks, c.1 ≠ [] ∧ ∀ p ∈ c.1, P p) ∧
    (∀ p ∈ (chunkStep tok cs ov st s).cur, P p) := by
  have hchunks1 : ∀ c ∈ (if st.cur.isEmpty then st.chunks
      else st.chunks ++ [(st.cur, st.curSeed)]), c.1 ≠ [] ∧ ∀ p ∈ c.1, P p := by
    by_cases hce : st.cur.isEmpty
    · rw [if_pos hce]
      exact hchunks
    · rw [if_neg hce]
      intro c hc
      rcases List.mem_append.mp hc with hm | hm
      · exact hchunks c hm
      · have : c = (st.cur, st.curSeed) := by simpa using hm
        subst this
        exact ⟨by simpa [List.isEmpty_iff] using hce, hcur⟩
  have hfw := forceWords_pieces tok cs P (words s) [] [] 0
    (by intro c hc; simp at hc) (by intro p hp; simp at hp) hw
  by_cases h1 : cs < tok s
  · by_cases h4 : (forceWordsAux tok cs [] [] 0 (words s)).2.1.isEmpty
    · rw [chunkStep_big_none tok cs ov st s h1 h4]
      dsimp only
      refine ⟨?_, by simp⟩
      intro c hc
      rcases List.mem_append.mp hc with hm | hm
      · exact hchunks1 c hm
      · obtain ⟨c1, hc1, hceq⟩ := List.mem_map.mp hm
        rw [← hceq]
        exact hfw.1 c1 hc1
    · rw [chunkStep_big_some tok cs ov st s h1 h4]
      dsimp only
      refine ⟨?_, ?_⟩
      · intro c hc
        rcases List.mem_append.mp hc with hm | hm
        · rcases List.mem_append.mp hm with hm2 | hm2
          · exact hchunks1 c hm2
          · obtain ⟨c1, hc1, hceq⟩ := List.mem_map.mp hm2
            rw [← hceq]
            exact hfw.1 c1 hc1
        · have : c = ((forceWordsAux tok cs [] [] 0 (words s)).2.1, []) := by
            simpa using hm
          subst this
          exact ⟨by simpa [List.isEmpty_iff] using h4, hfw.2⟩
      · intro p hp
        by_cases hov : 0 < ov
        · rw [if_pos hov] at hp
          exact hfw.2 p (List.drop_subset _ _ hp)
        · rw [if_neg hov] at hp
          simp at hp
  · by_cases h2 : cs < st.curTok + tok s
    · by_cases h3 : 0 < ov ∧ ¬st.cur.isEmpty
      · rw [chunkStep_close_win tok cs ov st s h1 h2 h3]
        dsimp only
        have hcurne : st.cur ≠ [] := by simpa [List.isEmpty_iff] using h3.2
        refine ⟨?_, ?_⟩
        · intro c hc
          rcases List.mem_append.mp hc with hm | hm
          · exact hchunks c hm
          · have : c = (st.cur, st.curSeed) := by simpa using hm
            subst this
            exact ⟨hcurne, hcur⟩
        · intro p hp
          rcases List.mem_append.mp hp with hm | hm
          · exact hcur p ((ovWindow_suffix tok ov st.cur).subset hm)
          · have : p = s := by simpa using hm
            subst this
            exact hs
      · rw [chunkStep_close_plain tok cs ov st s h1 h2 h3]
        dsimp only
        refine ⟨hchunks1, ?_⟩
        intro p hp
        have : p = s := by simpa using hp
        subst this
        exact hs
    · rw [chunkStep_extend tok cs ov st s h1 h2]
      dsimp only
      refine ⟨hchunks, ?_⟩
      intro p hp
      rcases List.mem_append.mp hp with hm | hm
      · exact hcur p hm
      · have : p = s := by simpa using hm
        subst this
        exact hs

theorem chunkTextI_pieces (tok : Str → Nat) (cs ov : Nat) (P : Str → Prop)
    (sents : List Str) (hP : ∀ s ∈ sents, P s ∧ ∀ w ∈ words s, P w) :
    ∀ c ∈ chunkTextI tok sents cs ov, c.1 ≠ [] ∧ ∀ p ∈ c.1, P p := by
  have hfold : ∀ (ss : List Str), (∀ s ∈ ss, P s ∧ ∀ w ∈ words s, P w) →
      ∀ (st : ChunkState), (∀ c ∈ st.chunks, c.1 ≠ [] ∧ ∀ p ∈ c.1, P p) →
      (∀ p ∈ st.cur, P p) →
      (∀ c ∈ (ss.foldl (chunkStep tok cs ov) st).chunks, c.1 ≠ [] ∧ ∀ p ∈ c.1, P p) ∧
      (∀ p ∈ (ss.foldl (chunkStep tok cs ov) st).cur, P p) := by
    intro ss
    induction ss with
    | nil =>
      intro _ st h1 h2
      exact ⟨h1, h2⟩
    | cons s rest ih =>
      intro hall st h1 h2
      obtain ⟨j1, j2⟩ := chunkStep_pieces tok cs ov P st s (hall s (by simp)).1
        (hall s (by simp)).2 h1 h2
      simpa using ih (fun x hx => hall x (by simp [hx])) (chunkStep tok cs ov st s) j1 j2
  intro c hc
  obtain ⟨J1, J2⟩ := hfold sents hP ⟨[], [], [], 0⟩
    (by intro x hx; simp at hx) (by intro p hp; simp at hp)
  unfold chunkTextI at hc
  set fin := List.foldl (chunkStep tok cs ov) ⟨[], [], [], 0⟩ sents with hfin
  by_cases hfc : fin.cur.isEmpty
  · rw [if_pos hfc] at hc
    exact J1 c hc
  · rw [if_neg hfc] at hc
    rcases List.mem_append.mp hc with hm | hm
    · exact J1 c hm
    · have : c = (fin.cur, fin.curSeed) := by simpa using hm
      subst this
      exact ⟨by simpa [List.isEmpty_iff] using hfc, J2⟩

theorem chunkText_joinOf (tok : Str → Nat) (split : Str → List Str) (cs ov : Nat)
    (src target : Str) (hsrc : src <:+: target)
    (hsplit : ∀ s ∈ split src, s <:+: src) :
    ∀ c ∈ chunkText tok split src cs ov, SpaceJoinOfInfixes target c := by
  intro c hc
  unfold chunkText at hc
  by_cases h1 : src.isEmpty
  · rw [if_pos h1] at hc
    simp at hc
  · rw [if_neg h1] at hc
    by_cases h2 : (split src).isEmpty
    · rw [if_pos h2] at hc
      simp at hc
    · rw [if_neg h2] at hc
      obtain ⟨pieces, hp, hpeq⟩ := List.mem_map.mp hc
      unfold chunkTextPieces at hp
      obtain ⟨cI, hcI, hcIeq⟩ := List.mem_map.mp hp
      have hP : ∀ s ∈ split src, (fun p => p <:+: target) s ∧
          ∀ w ∈ words s, (fun p => p <:+: target) w := by
        intro s hs
        refine ⟨(hsplit s hs).trans hsrc, ?_⟩
        intro w hw
        exact ((words_mem_inf s w hw).trans (hsplit s hs)).trans hsrc
      have hpi := chunkTextI_pieces tok cs ov (fun p => p <:+: target)
        (split src) hP cI hcI
      exact ⟨cI.1, hpi.1, by rw [← hpeq, hcIeq], fun p hp2 => hpi.2 p hp2⟩

/-- C6 (amended): every chunk record produced by `smart_chunk` has a text
that is the single-space join of nonempty pieces (sentences or words) each
of which occurs verbatim (contiguously) in the source text, provided the
sentence splitter only returns contiguous substrings of its input (true of
the in-repository fallback splitter, `splitFallback_inf`).  The chunk text
itself need not be a contiguous substring, because sentence delimiters and
the original inter-sentence whitespace are not preserved by the join. -/
theorem claim_C6 (tok : Str → Nat) (split : Str → List Str) (cs ov : Nat)
    (text : Str) (md : List (Str × Str))
    (hsplit : ∀ t s, s ∈ split t → s <:+: t) :
    ∀ rec ∈ smartChunk tok split cs ov text md, SpaceJoinOfInfixes text rec.text := by
  intro rec hrec
  unfold smartChunk at hrec
  by_cases ht : text.isEmpty
  · rw [if_pos ht] at hrec
    simp at hrec
  · rw [if_neg ht] at hrec
    rcases hI : identifySections text with _ | secs
    · rw [hI] at hrec
      obtain ⟨ic, hic, hrecEq⟩ := List.mem_map.mp hrec
      have hsnd : ic.2 ∈ chunkText tok split text cs ov := by
        have := List.mem_map_of_mem Prod.snd hic
        rwa [List.enum_map_snd] at this
      have := chunkText_joinOf tok split cs ov text text List.infix_rfl
        (fun s hs => hsplit text s hs) ic.2 hsnd
      rw [← hrecEq]
      exact this
    · rw [hI] at hrec
      obtain ⟨sec, hsec, hrecm⟩ := List.mem_flatMap.mp hrec
      obtain ⟨ic, hic, hrecEq⟩ := List.mem_map.mp hrecm
      have hsnd : ic.2 ∈ chunkText tok split sec.text cs ov := by
        have := List.mem_map_of_mem Prod.snd hic
        rwa [List.enum_map_snd] at this
      have hsi : sec.text <:+: text := identifySections_sec_inf text secs hI sec hsec
      have := chunkText_joinOf tok split cs ov sec.text text hsi
        (fun s hs => hsplit sec.text s hs) ic.2 hsnd
      rw [← hrecEq]
      exact this

/-- C6 witness at concrete inputs: the chunk "a b" of the two-sentence text
is a space-join of the substrings "a" and "b" (here with the chunker's own
fallback splitter, which returns contiguous substrings by
`splitFallback_inf`). -/
theorem claim_C6_witness :
    SpaceJoinOfInfixes ("a.\nb.".data) ("a b".data) :=
  claim_C6 tokFallback splitFallback 512 50 ("a.\nb.".data) [] splitFallback_inf
    ⟨("a b".data), none, none, 0, 2, []⟩ (by decide)

/-- C6 counterexample: `smart_chunk` on the text "a.\nb." produces the
single chunk text "a b", which is not a contiguous substring of the source:
the sentence delimiters are dropped and the newline between the sentences is
replaced by a single space by `' '.join`. -/
theorem claim_C6_cex :
    (smartChunk tokFallback splitFallback 512 50 ("a.\nb.".data) []).map
      ChunkRec.text = [("a b".data)] ∧
    ¬(("a b".data) <:+: ("a.\nb.".data)) := by
  refine ⟨by decide, by decide⟩

/-- C8 (amended): when `identify_sections` returns sections, every chunk
record of `smart_chunk` is tagged with the title and index of the section
whose text (a contiguous region of the document) it was chunked from, and
its text is a chunk of that single section — chunking never crosses a
detected section boundary.  When `identify_sections` returns `None`
(no heading lines, or no heading followed by at least one content line
before the next heading — a bare trailing heading is dropped, and content
before the first heading is discarded), `smart_chunk` falls back to
whole-document `chunk_text` and the records carry no section tag. -/
theorem claim_C8 (tok : Str → Nat) (split : Str → List Str) (cs ov : Nat)
    (text : Str) (md : List (Str × Str)) :
    ∀ rec ∈ smartChunk tok split cs ov text md,
      (∀ secs, identifySections text = some secs →
        ∃ sec ∈ secs, rec.secTitle = some sec.title ∧ rec.secIndex = some sec.index ∧
          rec.text ∈ chunkText tok split sec.text cs ov ∧ sec.text <:+: text) ∧
      (identifySections text = none →
        rec.secTitle = none ∧ rec.secIndex = none ∧
        rec.text ∈ chunkText tok split text cs ov) := by
  intro rec hrec
  unfold smartChunk at hrec
  by_cases ht : text.isEmpty
  · rw [if_pos ht] at hrec
    simp at hrec
  · rw [if_neg ht] at hrec
    rcases hI : identifySections text with _ | secs0
    · rw [hI] at hrec
      obtain ⟨ic, hic, hrecEq⟩ := List.mem_map.mp hrec
      constructor
      · intro secs hsecs
        exact absurd hsecs (by simp)
      · intro _
        have hsnd : ic.2 ∈ chunkText tok split text cs ov := by
          have := List.mem_map_of_mem Prod.snd hic
          rwa [List.enum_map_snd] at this
        rw [← hrecEq]
        exact ⟨rfl, rfl, hsnd⟩
    · rw [hI] at hrec
      obtain ⟨sec, hsec, hrecm⟩ := List.mem_flatMap.mp hrec
      obtain ⟨ic, hic, hrecEq⟩ := List.mem_map.mp hrecm
      constructor
      · intro secs hsecs
        have hseq : secs0 = secs := Option.some.inj hsecs
        subst hseq
        have hsnd : ic.2 ∈ chunkText tok split sec.text cs ov := by
          have := List.mem_map_of_mem Prod.snd hic
          rwa [List.enum_map_snd] at this
        refine ⟨sec, hsec, ?_⟩
        rw [← hrecEq]
        exact ⟨rfl, rfl, hsnd, identifySections_sec_inf text secs0 hI sec hsec⟩
      · intro hnone
        exact absurd hnone (by simp)

/-- C8 witness at concrete inputs: the heading-free text "ab" takes the
fallback path and its single record carries no section tag. -/
theorem claim_C8_witness :
    (⟨("ab".data), none, none, 0, 1, []⟩ : ChunkRec).secTitle = none ∧
    (⟨("ab".data), none, none, 0, 1, []⟩ : ChunkRec).secIndex = none ∧
    (⟨("ab".data), none, none, 0, 1, []⟩ : ChunkRec).text ∈
      chunkText (fun _ => 1) (fun t => [t]) ("ab".data) 1 1 :=
  (claim_C8 (fun _ => 1) (fun t => [t]) 1 1 ("ab".data) []
    ⟨("ab".data), none, none, 0, 1, []⟩ (by decide)).2 (by decide)

/-- C8 counterexample: the text "# A" consists of a single line matching the
markdown heading pattern (title "A"), yet `identify_sections` drops the
section because no content line follows, returns `None`, and `smart_chunk`
falls back to whole-document chunking: the returned record carries no
section title or index, contradicting the claim for texts with at least one
heading line. -/
theorem claim_C8_cex :
    headerTitle (trimStr ("# A".data)) = some ("A".data) ∧
    identifySections ("# A".data) = none ∧
    smartChunk tokFallback splitFallback 512 50 ("# A".data) [] =
      [⟨("# A".data), none, none, 0, 2, []⟩] := by
  refine ⟨by decide, by decide, by decide⟩
